import Mathlib

/-!
# Verification of the file-compression codecs (RLE, Huffman, LZW)

This development is a shallow embedding, in Lean 4, of the byte-stream level
of the three codecs implemented in src/src/rle.cpp, src/src/huffman.cpp and
src/src/lzw.cpp.  Files are modelled as lists of natural numbers (each a byte
value 0..255), the C++ uint32 registers as natural numbers reduced modulo
2^32 where overflow can occur, and fallible operations as Option- or
result-valued functions.  Loops whose termination depends on run-time data
(the LZW decode loop, the bit-reader refill loop) take an explicit fuel
argument; exhausting the fuel is reported as a distinguished outcome.

Bitwise OR-assignments of the C++ code (buffer |= x << k) always land in bit
positions that are zero in the target register - this is an invariant of the
original code - and are therefore written here as additions of disjoint
binary fields; shifts and masks are written with * 2^k, / 2^k and % 2^k,
which agree exactly with the uint32 operations in the source on the ranges
involved.
-/

namespace RLE

/-- MAX_RUN_LENGTH from rle.h. -/
def MAX_RUN_LENGTH : Nat := 255

/-- The body of the read loop of RLECompressor::compress (rle.cpp lines
29-41), after the first input byte has initialised the state: cur is
currentChar, cnt is count.  At end of input the final pair is emitted
(rle.cpp lines 43-45). -/
def compressGo : List Nat → Nat → Nat → List Nat
  | [], cur, cnt => [cnt, cur]
  | ch :: rest, cur, cnt =>
    if ch = cur ∧ cnt < MAX_RUN_LENGTH then compressGo rest cur (cnt + 1)
    else cnt :: cur :: compressGo rest ch 1

/-- RLECompressor::compress at the byte-stream level: empty input emits
nothing (firstChar never cleared); otherwise the run loop runs with the
first byte as currentChar and count 1. -/
def compress : List Nat → List Nat
  | [] => []
  | ch :: rest => compressGo rest ch 1

/-- The decompress loop (rle.cpp lines 76-81): readRunLength succeeds only
when both the count byte and the character byte can be read, so a trailing
unpaired byte ends the loop without being consumed. -/
def decompressGo : List Nat → List Nat
  | cnt :: ch :: rest => List.replicate cnt ch ++ decompressGo rest
  | _ => []

/-- RLECompressor::decompress at the byte-stream level.  The byte-level loop
cannot fail (readRunLength returning false simply ends it), so the function
always succeeds; the Option layer mirrors the boolean result of the C++
function, which is false only for file-system errors that are outside this
model. -/
def decompress (file : List Nat) : Option (List Nat) :=
  some (decompressGo file)

/-- RLECompressor::isValidRLEFile: any file of positive, even size. -/
def isValidRLEFile (file : List Nat) : Bool :=
  decide (file.length ≠ 0 ∧ file.length % 2 = 0)

end RLE

namespace Bits

/-- State of BitWriter (lzw.cpp lines 5-42): the 32-bit accumulation
register buffer_, the count bitsInBuffer_, and the bytes already written
to the output sink. -/
structure BWState where
  buffer : Nat
  bits : Nat
  out : List Nat
deriving DecidableEq

def initBW : BWState := ⟨0, 0, []⟩

/-- The while loop of BitWriter::writeBits (lzw.cpp lines 11-30).  Each
pass writes bitsToWrite = min(numBits, 32 - bitsInBuffer_) low bits of
value into the free low region of the register (the C++ OR lands in zero
bits, hence the addition) and emits four big-endian bytes when the
register fills.  The loop consumes at least one bit per pass whenever
bitsInBuffer_ < 32, an invariant of the original code, so numBits passes
suffice; the first argument is that pass counter. -/
def writeBitsGo : Nat → Nat → Nat → BWState → BWState
  | 0, _, _, st => st
  | fuel + 1, value, numBits, st =>
    if numBits = 0 then st
    else
      let k := min numBits (32 - st.bits)
      let buf := st.buffer + value % 2 ^ k * 2 ^ (32 - st.bits - k)
      if st.bits + k = 32 then
        writeBitsGo fuel (value / 2 ^ k) (numBits - k)
          ⟨0, 0, st.out ++
            [buf / 2 ^ 24 % 256, buf / 2 ^ 16 % 256, buf / 2 ^ 8 % 256, buf % 256]⟩
      else
        writeBitsGo fuel (value / 2 ^ k) (numBits - k) ⟨buf, st.bits + k, st.out⟩

/-- BitWriter::writeBits. -/
def writeBits (value numBits : Nat) (st : BWState) : BWState :=
  writeBitsGo numBits value numBits st

/-- BitWriter::flush (lzw.cpp lines 32-42): emits ceil(bits/8) bytes from
the top of the register. -/
def flush (st : BWState) : BWState :=
  if 0 < st.bits then
    ⟨0, 0, st.out ++
      (List.range ((st.bits + 7) / 8)).map (fun i => st.buffer / 2 ^ (24 - 8 * i) % 256)⟩
  else st

/-- State of BitReader (lzw.cpp lines 44-93): remaining input bytes, the
32-bit register buffer_, the count bitsInBuffer_, and the latch
endOfFile_. -/
structure BRState where
  data : List Nat
  buffer : Nat
  bits : Nat
  eof : Bool
deriving DecidableEq

def initBR (file : List Nat) : BRState := ⟨file, 0, 0, false⟩

/-- buffer |= bytes[i] << (24 - i*8) over the bytes read by a refill. -/
def beWordGo : List Nat → Nat → Nat
  | [], _ => 0
  | b :: rest, i => b * 2 ^ (24 - 8 * i) + beWordGo rest (i + 1)

def beWord (bytes : List Nat) : Nat := beWordGo bytes 0

/-- BitReader::fillBuffer (lzw.cpp lines 73-93): reads up to four bytes,
positions them MSB-first in the register, and latches endOfFile_ whenever
fewer than four bytes were read - including when one to three bytes were
read and are now sitting in the register. -/
def fillBuffer (st : BRState) : BRState :=
  let bytes := st.data.take 4
  if bytes.length = 0 then { st with eof := true }
  else
    { data := st.data.drop 4
      buffer := beWord bytes
      bits := 8 * bytes.length
      eof := st.eof || decide (bytes.length < 4) }

/-- The while loop of BitReader::readBits (lzw.cpp lines 46-67).  Note the
loop guard: it requires endOfFile_ to be false, so once the latch is set
no further bits are extracted even if the register still holds some.
Every pass either extracts at least one bit or latches endOfFile_ (ending
the loop on the next test), so numBits + 2 passes suffice; the first
argument after numBits is that pass counter. -/
def readBitsGo (numBits : Nat) : Nat → Nat → Nat → BRState → Nat × BRState
  | 0, result, _, st => (result, st)
  | fuel + 1, result, bitsRead, st =>
    if bitsRead < numBits ∧ st.eof = false then
      let st1 := if st.bits = 0 then fillBuffer st else st
      if 0 < st1.bits then
        let k := min (numBits - bitsRead) st1.bits
        let v := st1.buffer / 2 ^ (32 - k) % 2 ^ k
        readBitsGo numBits fuel (result + v * 2 ^ (numBits - bitsRead - k))
          (bitsRead + k)
          ⟨st1.data, st1.buffer * 2 ^ k % 2 ^ 32, st1.bits - k, st1.eof⟩
      else
        readBitsGo numBits fuel result bitsRead st1
    else (result, st)

/-- BitReader::readBits. -/
def readBits (numBits : Nat) (st : BRState) : Nat × BRState :=
  readBitsGo numBits (numBits + 2) 0 0 st

/-- BitReader::hasData (lzw.cpp lines 69-71). -/
def hasData (st : BRState) : Bool := !st.eof || decide (0 < st.bits)

/-- Test driver: write each (value, width) pair in order, then flush,
returning the emitted byte stream. -/
def writeAll (pairs : List (Nat × Nat)) : List Nat :=
  (flush (pairs.foldl (fun st p => writeBits p.1 p.2 st) initBW)).out

/-- Test driver: read the given widths in order from a fresh reader,
returning the values. -/
def readAll (widths : List Nat) (file : List Nat) : List Nat :=
  (widths.foldl (fun (acc : List Nat × BRState) w =>
    ((readBits w acc.2).1 :: acc.1, (readBits w acc.2).2)) ([], initBR file)).1.reverse

/-- The big-endian integer value of a byte sequence. -/
def beByteVal (bytes : List Nat) : Nat := bytes.foldl (fun a b => 256 * a + b) 0

end Bits

namespace LZW

/-- Constants from lzw.h. -/
def INITIAL_CODE_WIDTH : Nat := 9

def MAX_CODE_WIDTH : Nat := 15

def MAX_DICTIONARY_SIZE : Nat := 32768

def CLEAR_CODE : Nat := 256

def STOP_CODE : Nat := 257

def FIRST_CODE : Nat := 258

/-- LZWCompressor::buildCompressionDictionary (lzw.cpp 172-180): the 256
single-byte strings mapped to codes 0..255.  The C++ container is an
unordered_map; it is modelled as an association list (keys are unique, so
lookup is order-independent). -/
def buildCompressionDictionary : List (List Nat × Nat) :=
  (List.range 256).map (fun i => ([i], i))

/-- unordered_map lookup (dict.find). -/
def dictFind (d : List (List Nat × Nat)) (k : List Nat) : Option Nat :=
  (d.find? (fun p => p.1 == k)).map (fun p => p.2)

/-- Encoder state of LZWCompressor::compressData. -/
structure EncState where
  dict : List (List Nat × Nat)
  nextCode : Nat
  codeWidth : Nat
  current : List Nat
  writer : Bits.BWState
deriving DecidableEq

def initEnc : EncState :=
  ⟨buildCompressionDictionary, FIRST_CODE, INITIAL_CODE_WIDTH, [], Bits.initBW⟩

/-- Body of the per-byte while loop of LZWCompressor::compressData
(lzw.cpp 204-227).  dict[current] on emission always hits an existing key
(current is either a seeded single byte or a string just found in the
dictionary), so the defaulted lookup never actually defaults. -/
def compressStep (st : EncState) (ch : Nat) : EncState :=
  let nxt := st.current ++ [ch]
  match dictFind st.dict nxt with
  | some _ => { st with current := nxt }
  | none =>
    let writer :=
      Bits.writeBits ((dictFind st.dict st.current).getD 0) st.codeWidth st.writer
    if st.nextCode < MAX_DICTIONARY_SIZE then
      let nc := st.nextCode + 1
      ⟨st.dict ++ [(nxt, st.nextCode)], nc,
        if 2 ^ st.codeWidth < nc ∧ st.codeWidth < MAX_CODE_WIDTH then
          st.codeWidth + 1
        else st.codeWidth,
        [ch], writer⟩
    else
      ⟨buildCompressionDictionary, FIRST_CODE, INITIAL_CODE_WIDTH, [ch],
        Bits.writeBits CLEAR_CODE st.codeWidth writer⟩

/-- The tail of LZWCompressor::compressData (lzw.cpp 229-234): emit the
pending string if non-empty, emit STOP, and flush (the flush is performed
by the BitWriter destructor when compress returns). -/
def compressFinish (st : EncState) : List Nat :=
  let w1 :=
    if st.current.isEmpty then st.writer
    else Bits.writeBits ((dictFind st.dict st.current).getD 0) st.codeWidth st.writer
  (Bits.flush (Bits.writeBits STOP_CODE st.codeWidth w1)).out

/-- LZWCompressor::compressData (lzw.cpp 196-235): run the per-byte loop
over the input, then finish. -/
def compressData (input : List Nat) : List Nat :=
  compressFinish (input.foldl compressStep initEnc)

/-- LZWCompressor::buildDecompressionDictionary (lzw.cpp 182-194): codes
0..255 map to single-byte strings, entries 256 and 257 are empty
placeholders. -/
def buildDecompressionDictionary : List (List Nat) :=
  (List.range 256).map (fun i => [i]) ++ [[], []]

/-- Outcome of decompressData: a decoded byte stream, the explicit
invalid-code error of the source, an out-of-bounds vector access
(undefined behaviour in the source), or exhaustion of the loop fuel
(the source loop simply has not terminated within that many passes). -/
inductive DecodeResult
  | ok (out : List Nat)
  | invalidCode
  | oob
  | outOfFuel
deriving DecidableEq

/-- Decoder state of LZWCompressor::decompressData. -/
structure DecState where
  dict : List (List Nat)
  nextCode : Nat
  codeWidth : Nat
  prevString : List Nat
  reader : Bits.BRState
  output : List Nat
deriving DecidableEq

inductive ClearRes
  | stop
  | oob
  | cont (prevString : List Nat) (r : Bits.BRState)
deriving DecidableEq

/-- The CLEAR branch of decompressData (lzw.cpp 262-275): after re-seeding
the dictionary and resetting the width to 9, a fresh previous code is read
and used to index the 258-entry dictionary.  Unlike the first code of the
stream, this code is not compared against the dictionary size before the
access dict[prevCode]; an index of 258 or more is an out-of-bounds
std::vector access, modelled as the oob outcome. -/
def clearStep (r : Bits.BRState) : ClearRes :=
  match Bits.readBits INITIAL_CODE_WIDTH r with
  | (p, r1) =>
    if p = STOP_CODE then .stop
    else
      match buildDecompressionDictionary.get? p with
      | none => .oob
      | some s => .cont s r1

/-- The while (reader.hasData()) loop of LZWCompressor::decompressData
(lzw.cpp 255-300), with an explicit pass counter (fuel).  The string
indexing prevString[0] and currentString[0] is std::string operator[],
which returns the null character at index equal to the size, hence the
headD 0.  The source also keeps prevCode updated inside the loop, but
never reads it again after the first code; it is omitted here. -/
def decodeLoop : Nat → DecState → DecodeResult
  | 0, _ => .outOfFuel
  | fuel + 1, st =>
    if Bits.hasData st.reader then
      match Bits.readBits st.codeWidth st.reader with
      | (code, r1) =>
        if code = STOP_CODE then .ok st.output
        else if code = CLEAR_CODE then
          match clearStep r1 with
          | .stop => .ok st.output
          | .oob => .oob
          | .cont s r2 =>
            decodeLoop fuel
              ⟨buildDecompressionDictionary, FIRST_CODE, INITIAL_CODE_WIDTH, s,
                r2, st.output ++ s⟩
        else
          match
            (if code < st.dict.length then st.dict.get? code
             else if code = st.nextCode then
               some (st.prevString ++ [st.prevString.headD 0])
             else none) with
          | none => .invalidCode
          | some cur =>
            if st.nextCode < MAX_DICTIONARY_SIZE then
              let nc := st.nextCode + 1
              decodeLoop fuel
                ⟨st.dict ++ [st.prevString ++ [cur.headD 0]], nc,
                  if 2 ^ st.codeWidth < nc ∧ st.codeWidth < MAX_CODE_WIDTH then
                    st.codeWidth + 1
                  else st.codeWidth,
                  cur, r1, st.output ++ cur⟩
            else
              decodeLoop fuel
                ⟨st.dict, st.nextCode, st.codeWidth, cur, r1, st.output ++ cur⟩
    else .ok st.output

/-- LZWCompressor::decompressData (lzw.cpp 237-303): the first code is
read at width 9, STOP means empty output, a code at or beyond the seeded
dictionary size (258) is rejected, anything else seeds prevString and
enters the loop. -/
def decompressData (fuel : Nat) (file : List Nat) : DecodeResult :=
  match Bits.readBits INITIAL_CODE_WIDTH (Bits.initBR file) with
  | (p, r1) =>
    if p = STOP_CODE then .ok []
    else if buildDecompressionDictionary.length ≤ p then .invalidCode
    else
      match buildDecompressionDictionary.get? p with
      | none => .invalidCode
      | some s =>
        decodeLoop fuel
          ⟨buildDecompressionDictionary, FIRST_CODE, INITIAL_CODE_WIDTH, s, r1, s⟩

/-- The dictionary entries the encoder inserts while compressing the
strictly increasing input 0, 1, 2, ...: the pair strings (i, i+1). -/
def pairsList (j : Nat) : List (List Nat × Nat) :=
  (List.range j).map (fun i => ([i, i + 1], 258 + i))

/-- The reader state after j nine-bit reads of a stream whose first 288
bytes are zero: ceil(9j/32) words have been fetched, all zero, so the
register value is 0 and it holds 32*ceil(9j/32) - 9j still-unread zero
bits. -/
def zeroReader (T : List Nat) (j : Nat) : Bits.BRState :=
  ⟨List.replicate (288 - 4 * ((9 * j + 31) / 32)) 0 ++ T, 0,
    32 * ((9 * j + 31) / 32) - 9 * j, false⟩

/-- The decoder state after processing 1 + i zero codes of a stream whose
first 288 bytes are zero: i insertions of the two-byte string 00 00,
previous string 00, and 1 + i output zeros. -/
def zeroDecState (T : List Nat) (i : Nat) : DecState :=
  ⟨buildDecompressionDictionary ++ List.replicate i [0, 0], 258 + i, 9, [0],
    zeroReader T (1 + i), List.replicate (1 + i) 0⟩

end LZW

namespace Bits

/-- Total number of bits pushed through a writer: eight per emitted byte
plus the register fill. -/
def totalBits (st : BWState) : Nat := 8 * st.out.length + st.bits

end Bits

namespace Huffman

/-- HuffmanNode (huffman.h lines 9-24).  The leaf constructor carries a
character and a frequency; the internal constructor carries two children
and a frequency, its character being fixed to 0 (huffman.h line 19). -/
inductive HTree
  | leaf (character frequency : Nat)
  | node (frequency : Nat) (left right : HTree)
deriving DecidableEq

def HTree.frequency : HTree → Nat
  | .leaf _ f => f
  | .node f _ _ => f

def HTree.character : HTree → Nat
  | .leaf c _ => c
  | .node _ _ _ => 0

def HTree.isLeaf : HTree → Bool
  | .leaf _ _ => true
  | .node _ _ _ => false

/-- The strict priority order of HuffmanNodeComparator (huffman.h lines
26-33): the top of the priority queue is an element with the smallest
frequency, ties broken by the smallest character (0 for internal
nodes). -/
def keyLT (a b : HTree) : Prop :=
  a.frequency < b.frequency ∨
    (a.frequency = b.frequency ∧ a.character < b.character)

instance (a b : HTree) : Decidable (keyLT a b) := by
  unfold keyLT; infer_instance

/-- pq.top()/pq.pop(): remove an element minimal in the comparator order.
std::priority_queue leaves the order of elements that compare equal
unspecified; this model takes the earliest such element. -/
def popMin : List HTree → Option (HTree × List HTree)
  | [] => none
  | t :: rest =>
    match popMin rest with
    | none => some (t, [])
    | some (m, rest') => if keyLT m t then some (m, t :: rest') else some (t, rest)

/-- The while (pq.size() > 1) loop of buildHuffmanTree (huffman.cpp lines
112-120): pop right, pop left, push the merged node.  Each pass shrinks
the queue by one, so a pass counter equal to the initial size is enough
fuel; pq.top() on the final singleton is head?. -/
def buildLoopGo : Nat → List HTree → Option HTree
  | 0, pq => pq.head?
  | fuel + 1, pq =>
    if pq.length ≤ 1 then pq.head?
    else
      match popMin pq with
      | none => none
      | some (right, pq1) =>
        match popMin pq1 with
        | none => none
        | some (left, pq2) =>
          buildLoopGo fuel
            (HTree.node (left.frequency + right.frequency) left right :: pq2)

/-- HuffmanCompressor::buildHuffmanTree (huffman.cpp lines 105-123). -/
def buildHuffmanTree (freqs : List (Nat × Nat)) : Option HTree :=
  buildLoopGo freqs.length (freqs.map (fun p => HTree.leaf p.1 p.2))

/-- HuffmanCompressor::buildFrequencyTable (huffman.cpp lines 88-103):
the number of occurrences of each byte present in the input.  The C++
container is an unordered_map with unspecified iteration order; the model
lists the entries in byte order. -/
def freqTable (S : List Nat) : List (Nat × Nat) :=
  ((List.range 256).filter (fun b => 0 < S.count b)).map (fun b => (b, S.count b))

/-- HuffmanCompressor::generateCodes (huffman.cpp lines 125-135): DFS,
appending 0 on the left descent and 1 on the right descent; a leaf records
the accumulated string, the root-leaf special case records the code 0. -/
def generateCodes : HTree → List Bool → List (Nat × List Bool)
  | .leaf c _, code => [(c, if code.isEmpty then [false] else code)]
  | .node _ l r, code =>
      generateCodes l (code ++ [false]) ++ generateCodes r (code ++ [true])

/-- codeTable.at(ch): the code recorded for ch.  generateCodes writes into
an unordered_map, so a later assignment would win; the reverse lookup
models that (the trees built here have distinct leaves, making it
immaterial). -/
def lookupCode (ct : List (Nat × List Bool)) (ch : Nat) : List Bool :=
  ((ct.reverse.find? (fun p => p.1 == ch)).map (fun p => p.2)).getD []

/-- HuffmanCompressor::serializeTree (huffman.cpp lines 137-150): preorder,
1 then the eight character bits MSB-first at a leaf, 0 then the two
subtrees at an internal node. -/
def serializeTree : HTree → List Bool
  | .leaf c _ =>
      true :: (List.range 8).map (fun i => decide (c / 2 ^ (7 - i) % 2 = 1))
  | .node _ l r => false :: (serializeTree l ++ serializeTree r)

/-- byte = (byte << 1) | bit over a chunk of up to eight bits. -/
def bitsByte (chunk : List Bool) : Nat :=
  chunk.foldl (fun a b => 2 * a + (if b then 1 else 0)) 0

/-- The byte packing loops of writeCompressedFile (huffman.cpp lines
188-198 and 211-220): chunks of eight bits MSB-first, the final partial
chunk left-shifted so its bits sit in the byte's high positions. -/
def packBits : List Bool → List Nat
  | [] => []
  | b :: rest =>
    (bitsByte ((b :: rest).take 8) * 2 ^ (8 - ((b :: rest).take 8).length))
      :: packBits ((b :: rest).drop 8)
termination_by bits => bits.length
decreasing_by simp; omega

/-- A 32-bit little-endian integer as written by output.write on x86. -/
def toLE32 (n : Nat) : List Nat :=
  [n % 256, n / 256 % 256, n / 65536 % 256, n / 16777216 % 256]

/-- HuffmanCompressor::compress (huffman.cpp lines 7-49) together with
writeCompressedFile (lines 169-224), at the byte level.  An empty
frequency table (empty input) is rejected with an error; a single
distinct byte produces the short form: the 32-bit original size then the
byte.  Otherwise the container is the original size, the serialized tree
preceded by its bit count, and the encoded payload preceded by its bit
count.  Sizes are truncated to 32 bits as in the uint32_t casts. -/
def compress (S : List Nat) : Option (List Nat) :=
  let freqs := freqTable S
  if freqs.isEmpty then none
  else if freqs.length = 1 then
    match freqs with
    | [] => none
    | (b, _) :: _ => some (toLE32 (S.length % 2 ^ 32) ++ [b])
  else
    match buildHuffmanTree freqs with
    | none => none
    | some root =>
      let codeTable := generateCodes root []
      let tbits := serializeTree root
      let enc := S.foldl (fun acc ch => acc ++ lookupCode codeTable ch) []
      some (toLE32 (S.length % 2 ^ 32) ++ toLE32 (tbits.length % 2 ^ 32) ++
        packBits tbits ++ toLE32 (enc.length % 2 ^ 32) ++ packBits enc)

/-- input.read of a uint32 (little-endian, x86): fails when fewer than
four bytes remain. -/
def readU32LE : List Nat → Option (Nat × List Nat)
  | a :: b :: c :: d :: rest =>
      some (a + 256 * b + 65536 * c + 16777216 * d, rest)
  | _ => none

/-- The eight bits of a byte, MSB first. -/
def byteBits (x : Nat) : List Bool :=
  (List.range 8).map (fun i => decide (x / 2 ^ (7 - i) % 2 = 1))

/-- The bit-unpacking loops of readCompressedFile (huffman.cpp lines
262-269 and 280-287), before truncation to the recorded bit count. -/
def unpackBits (bytes : List Nat) : List Bool :=
  (bytes.map byteBits).flatten

/-- The nodes built by deserializeTree: children may be null. -/
inductive DNode
  | mk (character : Nat) (left right : Option DNode)

def DNode.character : DNode → Nat
  | .mk c _ _ => c

def DNode.left : DNode → Option DNode
  | .mk _ l _ => l

def DNode.right : DNode → Option DNode
  | .mk _ _ r => r

def DNode.isLeaf : DNode → Bool
  | .mk _ none none => true
  | _ => false

/-- HuffmanCompressor::deserializeTree (huffman.cpp lines 152-167), with
the index-into-the-vector state carried as the remaining bit list.  The
call consumes at least one bit before recursing, so a pass counter above
the bit count is enough fuel. -/
def deserializeGo : Nat → List Bool → Option DNode × List Bool
  | 0, bits => (none, bits)
  | _ + 1, [] => (none, [])
  | _ + 1, true :: bits =>
      if 8 ≤ bits.length then
        (some (DNode.mk (bitsByte (bits.take 8)) none none), bits.drop 8)
      else (none, [])
  | fuel + 1, false :: bits =>
      match deserializeGo fuel bits with
      | (l, bits1) =>
        match deserializeGo fuel bits1 with
        | (r, bits2) => (some (DNode.mk 0 l r), bits2)

/-- The decoding walk of readCompressedFile (huffman.cpp lines 289-301):
0 descends left, 1 descends right, a leaf emits its character and resets
to the root.  Descending from a node without the requested child is a
null-pointer dereference in the source, modelled as failure. -/
def walk (root : DNode) : List Bool → DNode → Option (List Nat)
  | [], _ => some []
  | bit :: rest, cur =>
    match (if bit then cur.right else cur.left) with
    | none => none
    | some nxt =>
      if nxt.isLeaf then
        match walk root rest root with
        | none => none
        | some out => some (nxt.character :: out)
      else walk root rest nxt

/-- HuffmanCompressor::decompress via readCompressedFile (huffman.cpp
lines 226-306), at the byte level.  A failed read of a u32 leaves the
value indeterminate in the source (and, for the single-symbol form, the
failed read also sets the stream failbit, which is never cleared, so the
subsequent seekg(4) and one-byte read of the symbol do not execute and
the emitted byte is an uninitialised stack value); every such
indeterminate outcome is modelled as failure (none). -/
def decompress (file : List Nat) : Option (List Nat) :=
  match readU32LE file with
  | none => none
  | some (osize, rest1) =>
    if osize = 0 then some []
    else
      match readU32LE rest1 with
      | none => none
      | some (tsize, rest2) =>
        let nTree := (tsize + 7) / 8
        let treeBytes := rest2.take nTree ++ List.replicate (nTree - rest2.length) 0
        let rest3 := rest2.drop nTree
        let sbits := (unpackBits treeBytes).take tsize
        match deserializeGo (sbits.length + 1) sbits with
        | (root?, _) =>
          match readU32LE rest3 with
          | none => none
          | some (ebits, rest4) =>
            let nEnc := (ebits + 7) / 8
            let encBytes := rest4.take nEnc ++ List.replicate (nEnc - rest4.length) 0
            let bitString := (unpackBits encBytes).take ebits
            match root? with
            | none => if bitString.isEmpty then some [] else none
            | some root => walk root bitString root

/-- The leaf entries (character, frequency) of a tree, left to right. -/
def leaves : HTree → List (Nat × Nat)
  | .leaf c f => [(c, f)]
  | .node _ l r => leaves l ++ leaves r

/-- The sum of the leaf frequencies of a tree. -/
def leafWeight : HTree → Nat
  | .leaf _ f => f
  | .node _ l r => leafWeight l + leafWeight r

/-- Internal consistency: every stored frequency is the sum of the leaf
frequencies below it (buildHuffmanTree maintains this by construction). -/
def wfT : HTree → Prop
  | .leaf _ _ => True
  | .node f l r => wfT l ∧ wfT r ∧ f = leafWeight l + leafWeight r

/-- The weighted external path length: each leaf contributes its stored
frequency times its depth, written as the sum over internal nodes of
their stored frequencies. -/
def cost : HTree → Nat
  | .leaf _ _ => 0
  | .node f l r => cost l + cost r + f

/-- Weighted depth sum starting from depth d. -/
def wsum : HTree → Nat → Nat
  | .leaf _ f, d => f * d
  | .node _ l r, d => wsum l (d + 1) + wsum r (d + 1)

/-- The elements of l in nondecreasing order. -/
def sortNats (l : List Nat) : List Nat := List.insertionSort (· ≤ ·) l

/-- The sum of the j smallest elements of l. -/
def ssum (j : Nat) (l : List Nat) : Nat := ((sortNats l).take j).sum

/-- One pass of the buildHuffmanTree loop, on the queue alone. -/
def mergeStep (pq : List HTree) : List HTree :=
  match popMin pq with
  | none => pq
  | some (right, pq1) =>
    match popMin pq1 with
    | none => pq
    | some (left, pq2) =>
        HTree.node (left.frequency + right.frequency) left right :: pq2

/-- The total of the merged-node frequencies created by the loop. -/
def mergeSumGo : Nat → List HTree → Nat
  | 0, _ => 0
  | fuel + 1, pq =>
    if pq.length ≤ 1 then 0
    else
      match popMin pq with
      | none => 0
      | some (right, pq1) =>
        match popMin pq1 with
        | none => 0
        | some (left, pq2) =>
          (left.frequency + right.frequency) +
            mergeSumGo fuel
              (HTree.node (left.frequency + right.frequency) left right :: pq2)

end Huffman

namespace RLE

/-- Closed form of the run loop on a uniform tail: with cnt bytes of the
current run already counted (1 ≤ cnt ≤ 255) and m more copies of b to
come, the emitted records are full records of 255 followed by the residue
record of the total run length m + cnt. -/
lemma compressGo_replicate (b : Nat) :
    ∀ m cnt, 1 ≤ cnt → cnt ≤ 255 →
      compressGo (List.replicate m b) b cnt =
        (List.replicate ((m + cnt) / 255) [255, b]).flatten ++
          (if (m + cnt) % 255 = 0 then [] else [(m + cnt) % 255, b])
  | 0, cnt, h1, h2 => by
      rcases eq_or_lt_of_le h2 with he | hlt
      · subst he
        show [255, b] = _
        norm_num
      · have hd : (0 + cnt) / 255 = 0 := by omega
        have hm : (0 + cnt) % 255 = cnt := by omega
        rw [hd, hm, if_neg (by omega)]
        show [cnt, b] = _
        simp
  | m + 1, cnt, h1, h2 => by
      rw [List.replicate_succ]
      rcases eq_or_lt_of_le h2 with he | hlt
      · subst he
        have ih := compressGo_replicate b m 1 (by omega) (by omega)
        show compressGo (b :: List.replicate m b) b 255 = _
        rw [compressGo]
        rw [if_neg (show ¬(b = b ∧ 255 < MAX_RUN_LENGTH) from by
          intro hc; exact absurd hc.2 (by norm_num [MAX_RUN_LENGTH]))]
        rw [ih]
        have hd : (m + 1 + 255) / 255 = (m + 1) / 255 + 1 := by omega
        have hm : (m + 1 + 255) % 255 = (m + 1) % 255 := by omega
        rw [hd, hm, List.replicate_succ, List.flatten_cons]
        simp
      · have ih := compressGo_replicate b m (cnt + 1) (by omega) (by omega)
        show compressGo (b :: List.replicate m b) b cnt = _
        rw [compressGo]
        rw [if_pos (show b = b ∧ cnt < MAX_RUN_LENGTH from
          ⟨rfl, by simpa [MAX_RUN_LENGTH] using hlt⟩)]
        rw [ih]
        have : m + (cnt + 1) = m + 1 + cnt := by omega
        rw [this]

/-- The length of a flattened list of k two-byte records is 2k. -/
lemma flatten_replicate_pair_length (k a b : Nat) :
    ((List.replicate k [a, b]).flatten).length = 2 * k := by
  induction k with
  | zero => simp
  | succ n ih => rw [List.replicate_succ, List.flatten_cons]; simp [ih]; omega

end RLE

/-- Claim C7: for every input of N copies of a byte b with N > 255, RLE
compression emits exactly the ceiling of N/255 adjacent (count, byte)
records - N/255 full records of count 255 followed, when 255 does not
divide N, by one residue record of count N mod 255 - for a total output
of exactly 2 * ceil(N/255) bytes. -/
theorem rle_run_split (N b : Nat) (h : 255 < N) :
    RLE.compress (List.replicate N b) =
      (List.replicate (N / 255) [255, b]).flatten ++
        (if N % 255 = 0 then [] else [N % 255, b]) ∧
    (RLE.compress (List.replicate N b)).length = 2 * ((N + 254) / 255) := by
  obtain ⟨M, rfl⟩ : ∃ M, N = M + 1 := ⟨N - 1, by omega⟩
  have hgo := RLE.compressGo_replicate b M 1 (by omega) (by omega)
  have hc : RLE.compress (List.replicate (M + 1) b) =
      RLE.compressGo (List.replicate M b) b 1 := by
    rw [List.replicate_succ]; rfl
  rw [hc, hgo]
  refine ⟨rfl, ?_⟩
  rw [List.length_append, RLE.flatten_replicate_pair_length]
  by_cases h0 : (M + 1) % 255 = 0
  · rw [if_pos h0]; simp; omega
  · rw [if_neg h0]; simp; omega

/-- Witness for C7 at the concrete scenario of the specification: 300
copies of byte 0x41 compress to the four bytes FF 41 2D 41. -/
theorem rle_run_split_witness :
    RLE.compress (List.replicate 300 65) = [255, 65, 45, 65] := by
  rw [(rle_run_split 300 65 (by norm_num)).1]; decide

/-- Counterexample for claim C5: the odd-length (3-byte) RLE file
[5, 65, 7] decompresses successfully (to five copies of byte 65) instead
of being rejected as an error, refuting the claim that odd length makes
the decompress operation fail. -/
theorem rle_decompress_odd_succeeds :
    RLE.decompress [5, 65, 7] = some [65, 65, 65, 65, 65] := by decide

/-- The byte-level decode loop ignores a trailing unpaired byte. -/
lemma decompressGo_odd :
    ∀ l : List Nat, l.length % 2 = 1 →
      RLE.decompressGo l = RLE.decompressGo l.dropLast
  | [], h => by simp at h
  | [x], _ => by simp [RLE.decompressGo]
  | a :: b :: rest, h => by
      have hr : rest.length % 2 = 1 := by
        simp [List.length_cons] at h; omega
      have hne : rest ≠ [] := by
        intro e; rw [e] at hr; simp at hr
      have ih := decompressGo_odd rest hr
      have hdl : (a :: b :: rest).dropLast = a :: b :: rest.dropLast := by
        cases rest with
        | nil => exact absurd rfl hne
        | cons c cs => simp [List.dropLast]
      rw [hdl]
      show List.replicate a b ++ RLE.decompressGo rest =
        List.replicate a b ++ RLE.decompressGo rest.dropLast
      rw [ih]

/-- Claim C5 as amended: RLE decompression does not fail on an odd-length
file; it succeeds and decodes exactly the pairs of the even-length prefix,
silently ignoring the trailing unpaired byte.  Only the separate validity
check isValidRLEFile - which the decompress path never calls - rejects
odd-length files. -/
theorem rle_decompress_odd_drops_last (file : List Nat)
    (h : file.length % 2 = 1) :
    RLE.decompress file = RLE.decompress file.dropLast ∧
      RLE.isValidRLEFile file = false := by
  constructor
  · show some (RLE.decompressGo file) = some (RLE.decompressGo file.dropLast)
    rw [decompressGo_odd file h]
  · simp [RLE.isValidRLEFile]; omega

/-- Witness for the amended C5 at the concrete odd-length file [3, 7, 9]:
decompression succeeds, agrees with the even prefix [3, 7], and the
validity check rejects the file. -/
theorem rle_decompress_odd_drops_last_witness :
    RLE.decompress [3, 7, 9] = RLE.decompress [3, 7] ∧
      RLE.isValidRLEFile [3, 7, 9] = false :=
  rle_decompress_odd_drops_last [3, 7, 9] (by decide)

namespace Bits

/-- Once the end-of-file latch is set, the read loop extracts nothing and
leaves the state unchanged, regardless of how many bits remain buffered. -/
lemma readBitsGo_eof (numBits fuel result bitsRead : Nat) (st : BRState)
    (h : st.eof = true) :
    readBitsGo numBits fuel result bitsRead st = (result, st) := by
  cases fuel with
  | zero => rfl
  | succ f =>
    rw [readBitsGo, if_neg]
    intro hc
    rw [h] at hc
    exact absurd hc.2 (by simp)

/-- readBits on a latched reader returns zero and does not change state. -/
lemma readBits_eof (n : Nat) (st : BRState) (h : st.eof = true) :
    readBits n st = (0, st) :=
  readBitsGo_eof n (n + 2) 0 0 st h

/-- A refill from a non-empty stream of fewer than four bytes loads all of
it MSB-first and latches the end-of-file flag. -/
lemma fill_short (B : List Nat) (h0 : B.length ≠ 0) (h4 : B.length < 4) :
    fillBuffer (initBR B) = ⟨[], beWord B, 8 * B.length, true⟩ := by
  have ht : B.take 4 = B := List.take_of_length_le (by omega)
  have hd : B.drop 4 = [] := List.drop_eq_nil_of_le (by omega)
  simp [fillBuffer, initBR, ht, hd, h0, h4]

/-- Reading from a fresh reader whose whole stream is shorter than the
requested width returns the stream value left-justified in the field. -/
lemma readBits_init_short (B : List Nat) (n : Nat) (h0 : B.length ≠ 0)
    (h4 : B.length < 4) (hn : 8 * B.length < n)
    (hv : beWord B = beByteVal B * 2 ^ (32 - 8 * B.length))
    (hb : beByteVal B < 2 ^ (8 * B.length)) :
    (readBits n (initBR B)).1 = beByteVal B * 2 ^ (n - 8 * B.length) := by
  rw [readBits, show n + 2 = (n + 1) + 1 from rfl, readBitsGo]
  rw [if_pos (show 0 < n ∧ (initBR B).eof = false from ⟨by omega, rfl⟩)]
  have hbits : (initBR B).bits = 0 := rfl
  rw [if_pos hbits, fill_short B h0 h4]
  dsimp only
  rw [if_pos (show (0 : Nat) < 8 * B.length by omega)]
  have hk : min (n - 0) (8 * B.length) = 8 * B.length := by omega
  rw [hk]
  have hvv : beWord B / 2 ^ (32 - 8 * B.length) % 2 ^ (8 * B.length) = beByteVal B := by
    rw [hv, Nat.mul_div_cancel _ (Nat.pos_pow_of_pos _ (by norm_num)),
      Nat.mod_eq_of_lt hb]
  rw [hvv]
  rw [readBitsGo_eof _ _ _ _ _ rfl]
  simp

/-- Reading any positive width from a fresh reader over the empty stream
returns zero. -/
lemma readBits_init_nil (n : Nat) (h1 : 1 ≤ n) :
    (readBits n (initBR [])).1 = 0 := by
  rw [readBits, show n + 2 = (n + 1) + 1 from rfl, readBitsGo]
  rw [if_pos (show 0 < n ∧ (initBR []).eof = false from ⟨by omega, rfl⟩)]
  have hbits : (initBR []).bits = 0 := rfl
  rw [if_pos hbits]
  have hfill : fillBuffer (initBR []) = ⟨[], 0, 0, true⟩ := by
    simp [fillBuffer, initBR]
  rw [hfill]
  dsimp only
  rw [if_neg (by omega)]
  rw [readBitsGo_eof _ _ _ _ _ rfl]

end Bits

/-- Claim C2 failure exhibit, two independent ways.
First conjunct pair: writing the pairs (1, 8), (1, 8) and flushing
produces the two bytes 01 01, but reading widths 8, 8 back returns 1 then
0 - not 1 then 1.  The first read triggers a refill that obtains only two
bytes, which latches endOfFile_, and the guard of BitReader::readBits then
refuses to extract the second byte even though its eight bits sit in the
register.
Last conjunct: a value whose bits straddle the 32-bit register boundary is
scrambled.  Writing (3,9), (3,9), (3,9), (257,9) fills 27 bits, so the
fourth value 257 = 100000001b straddles: BitWriter emits its LOW five bits
into the current register word and its high four bits into the next word,
while BitReader reassembles the first stream bits into the HIGH part of
the result, reading back 000110000b = 24 instead of 257.  The writer and
reader are therefore not mutually inverse, precisely in the straddling
case the claim singles out. -/
theorem bit_roundtrip_fails :
    (Bits.writeAll [(1, 8), (1, 8)] = [1, 1] ∧
      Bits.readAll [8, 8] [1, 1] = [1, 0]) ∧
    Bits.readAll [9, 9, 9, 9] (Bits.writeAll [(3, 9), (3, 9), (3, 9), (257, 9)]) =
      [3, 3, 3, 24] := by decide

/-- Counterexample for claim C6: a fresh reader over the single byte FF
asked for 9 bits returns 510 (the eight available bits left-justified in
the 9-bit field, missing low bit zero), not 255 (the eight available bits
right-shifted into the low-order positions with missing high bits zero). -/
theorem readBits_short_read_not_low_justified :
    (Bits.readBits 9 (Bits.initBR [255])).1 = 510 ∧
      (Bits.readBits 9 (Bits.initBR [255])).1 ≠ 255 := by decide

/-- Claim C6 as amended: when a fresh reader is asked for num_bits but the
whole stream holds fewer bits, read_bits returns the available bits
left-justified in the high-order positions of the num_bits field - the
missing low-order bits are zero (not, as claimed, right-shifted into the
low-order positions with the missing high-order bits zero).  Moreover,
once the end-of-file latch has been set by an earlier read, read_bits
returns 0 outright even if bits remain buffered (readBits_eof above). -/
theorem readBits_short_read_left_justified (B : List Nat) (n : Nat)
    (hB : ∀ x ∈ B, x < 256) (h1 : 1 ≤ n) (h32 : n ≤ 32)
    (hshort : 8 * B.length < n) :
    (Bits.readBits n (Bits.initBR B)).1 =
      Bits.beByteVal B * 2 ^ (n - 8 * B.length) := by
  match B, hB with
  | [], hB =>
    rw [Bits.readBits_init_nil n h1]; simp [Bits.beByteVal]
  | [a], hB =>
    have ha : a < 256 := hB a (by simp)
    refine Bits.readBits_init_short [a] n (by simp) (by simp)
      (by simpa using hshort) ?_ ?_
    · norm_num [Bits.beWord, Bits.beWordGo, Bits.beByteVal]
    · norm_num [Bits.beByteVal]; omega
  | [a, b], hB =>
    have ha : a < 256 := hB a (by simp)
    have hb : b < 256 := hB b (by simp)
    refine Bits.readBits_init_short [a, b] n (by simp) (by simp)
      (by simpa using hshort) ?_ ?_
    · norm_num [Bits.beWord, Bits.beWordGo, Bits.beByteVal]; ring
    · norm_num [Bits.beByteVal]; omega
  | [a, b, c], hB =>
    have ha : a < 256 := hB a (by simp)
    have hb : b < 256 := hB b (by simp)
    have hc : c < 256 := hB c (by simp)
    refine Bits.readBits_init_short [a, b, c] n (by simp) (by simp)
      (by simpa using hshort) ?_ ?_
    · norm_num [Bits.beWord, Bits.beWordGo, Bits.beByteVal]; ring
    · norm_num [Bits.beByteVal]; omega
  | a :: b :: c :: d :: rest, hB =>
    exfalso
    simp [List.length_cons] at hshort
    omega

/-- Witness for the amended C6: a fresh reader over the byte AB asked for
12 bits returns 0xAB0 = 2736, the eight available bits left-justified. -/
theorem readBits_short_read_left_justified_witness :
    (Bits.readBits 12 (Bits.initBR [171])).1 = 2736 := by
  have h := readBits_short_read_left_justified [171] 12 (by decide)
    (by norm_num) (by norm_num) (by norm_num)
  simpa [Bits.beByteVal] using h

namespace LZW

/-- In a state whose reader has the end-of-file latch set while bits remain
buffered, the decode loop can never finish: hasData stays true forever,
every read returns code 0 without changing the reader, code 0 is a valid
dictionary index, and the loop re-enters the same kind of state.  The
C++ loop therefore runs forever; here every fuel is exhausted. -/
lemma decodeLoop_stuck (fuel : Nat) :
    ∀ st : DecState, st.reader.eof = true → 0 < st.reader.bits →
      st.dict ≠ [] → decodeLoop fuel st = .outOfFuel := by
  induction fuel with
  | zero => intro st _ _ _; rfl
  | succ f ih =>
    intro st he hb hd
    rw [decodeLoop]
    have hhd : Bits.hasData st.reader = true := by
      simp [Bits.hasData, hb]
    rw [if_pos hhd]
    rw [Bits.readBits_eof _ _ he]
    dsimp only
    rw [if_neg (by decide : ¬ (0 = STOP_CODE)),
      if_neg (by decide : ¬ (0 = CLEAR_CODE))]
    have hlen : 0 < st.dict.length := List.length_pos.mpr hd
    rw [if_pos hlen]
    rcases hdict : st.dict with _ | ⟨d0, t⟩
    · exact absurd hdict hd
    · rw [List.get?_cons_zero]
      dsimp only
      by_cases hnc : st.nextCode < MAX_DICTIONARY_SIZE
      · rw [if_pos hnc]
        exact ih _ he hb (by simp)
      · rw [if_neg hnc]
        exact ih _ he hb (by simp)

end LZW

namespace Bits

/-- Each writeBits pass adds exactly its bit count to the total and keeps
the register fill below 32 - the invariant of section 4.1 of the
specification (bits on the sink = bits submitted, rounded down to a
multiple of 32, with the remainder in the register). -/
lemma writeBitsGo_totalBits :
    ∀ fuel value numBits (st : BWState), numBits ≤ fuel → st.bits ≤ 31 →
      totalBits (writeBitsGo fuel value numBits st) = totalBits st + numBits ∧
        (writeBitsGo fuel value numBits st).bits ≤ 31
  | 0, value, numBits, st, hf, hb => by
      obtain rfl : numBits = 0 := by omega
      exact ⟨by simp [writeBitsGo], by simpa [writeBitsGo] using hb⟩
  | fuel + 1, value, numBits, st, hf, hb => by
      rw [writeBitsGo]
      by_cases h0 : numBits = 0
      · subst h0
        exact ⟨by simp, by simpa using hb⟩
      · rw [if_neg h0]
        dsimp only
        have hk1 : 1 ≤ min numBits (32 - st.bits) := by omega
        have hk2 : min numBits (32 - st.bits) ≤ numBits := Nat.min_le_left _ _
        have hk3 : min numBits (32 - st.bits) ≤ 32 - st.bits := Nat.min_le_right _ _
        by_cases hfull : st.bits + min numBits (32 - st.bits) = 32
        · rw [if_pos hfull]
          have ih := writeBitsGo_totalBits fuel (value / 2 ^ min numBits (32 - st.bits))
            (numBits - min numBits (32 - st.bits))
            ⟨0, 0, st.out ++
              [(st.buffer + value % 2 ^ min numBits (32 - st.bits) *
                  2 ^ (32 - st.bits - min numBits (32 - st.bits))) / 2 ^ 24 % 256,
               (st.buffer + value % 2 ^ min numBits (32 - st.bits) *
                  2 ^ (32 - st.bits - min numBits (32 - st.bits))) / 2 ^ 16 % 256,
               (st.buffer + value % 2 ^ min numBits (32 - st.bits) *
                  2 ^ (32 - st.bits - min numBits (32 - st.bits))) / 2 ^ 8 % 256,
               (st.buffer + value % 2 ^ min numBits (32 - st.bits) *
                  2 ^ (32 - st.bits - min numBits (32 - st.bits))) % 256]⟩
            (by omega) (by norm_num)
          refine ⟨?_, ih.2⟩
          rw [ih.1]
          simp [totalBits]
          omega
        · rw [if_neg hfull]
          have ih := writeBitsGo_totalBits fuel (value / 2 ^ min numBits (32 - st.bits))
            (numBits - min numBits (32 - st.bits))
            ⟨st.buffer + value % 2 ^ min numBits (32 - st.bits) *
                2 ^ (32 - st.bits - min numBits (32 - st.bits)),
              st.bits + min numBits (32 - st.bits), st.out⟩
            (by omega)
            (by show st.bits + min numBits (32 - st.bits) ≤ 31; omega)
          refine ⟨?_, ih.2⟩
          rw [ih.1]
          simp [totalBits]
          omega

/-- writeBits adds exactly numBits to the bit total. -/
lemma writeBits_totalBits (v n : Nat) (st : BWState) (h : st.bits ≤ 31) :
    totalBits (writeBits v n st) = totalBits st + n ∧ (writeBits v n st).bits ≤ 31 :=
  writeBitsGo_totalBits n v n st le_rfl h

end Bits

namespace LZW

lemma dictFind_append (d1 d2 : List (List Nat × Nat)) (k : List Nat) :
    dictFind (d1 ++ d2) k = (dictFind d1 k).or (dictFind d2 k) := by
  unfold dictFind
  rw [List.find?_append]
  cases hf : List.find? (fun p => p.1 == k) d1 <;> simp [hf]

/-- No two-byte string is a key of the seeded dictionary. -/
lemma dictFind_seed_pair (x y : Nat) :
    dictFind buildCompressionDictionary [x, y] = none := by
  unfold dictFind buildCompressionDictionary
  rw [List.find?_eq_none.mpr]
  · rfl
  · intro p hp
    simp only [List.mem_map, List.mem_range] at hp
    obtain ⟨i, _, rfl⟩ := hp
    simp

/-- The pair (j, j+1) is not among the pairs inserted so far. -/
lemma dictFind_pairs_self (j : Nat) :
    dictFind (pairsList j) [j, j + 1] = none := by
  unfold dictFind pairsList
  rw [List.find?_eq_none.mpr]
  · rfl
  · intro p hp
    simp only [List.mem_map, List.mem_range] at hp
    obtain ⟨i, hi, rfl⟩ := hp
    simp only [beq_iff_eq]
    intro hc
    rw [List.cons.injEq] at hc
    omega

lemma seed_find_single :
    ∀ n x : Nat, x < n →
      List.find? (fun p => p.1 == [x]) ((List.range n).map (fun i => ([i], i)))
        = some ([x], x)
  | 0, x, h => absurd h (by omega)
  | n + 1, x, h => by
      rw [List.range_succ, List.map_append, List.find?_append]
      by_cases hx : x < n
      · rw [seed_find_single n x hx]; rfl
      · obtain rfl : x = n := by omega
        rw [List.find?_eq_none.mpr]
        · simp
        · intro p hp
          simp only [List.mem_map, List.mem_range] at hp
          obtain ⟨i, hi, rfl⟩ := hp
          simp only [beq_iff_eq]
          intro hc
          rw [List.cons.injEq] at hc
          omega

/-- Single-byte strings are seeded keys, mapped to their byte value. -/
lemma dictFind_seed_single (x : Nat) (hx : x < 256) :
    dictFind buildCompressionDictionary [x] = some x := by
  unfold dictFind buildCompressionDictionary
  rw [seed_find_single 256 x hx]
  rfl

/-- Encoder schedule on the input 0, 1, 2, ...: after consuming the first
n distinct bytes the dictionary holds the seed plus the first n - 1
pairs, the next free code is 257 + n, exactly 9 * (n - 1) bits - that is,
n - 1 nine-bit codes - have been pushed to the writer, and the code width
is 9 while n is at most 255 but 10 as soon as n = 256: insertion number
255, made immediately after the 255th code was emitted (at width 9),
satisfies next_code > 2^9 and widens the width, so the encoder's 256th
code is emitted with 10 bits. -/
theorem lzw_encoder_schedule :
    ∀ n : Nat, 1 ≤ n → n ≤ 256 →
      ∃ w : Bits.BWState,
        (List.range n).foldl compressStep initEnc =
          ⟨buildCompressionDictionary ++ pairsList (n - 1), 257 + n,
            if n ≤ 255 then 9 else 10, [n - 1], w⟩ ∧
          Bits.totalBits w = 9 * (n - 1) ∧ w.bits ≤ 31 := by
  intro n
  induction n with
  | zero => omega
  | succ m ih =>
    intro h1 h256
    by_cases hm : m = 0
    · subst hm
      refine ⟨Bits.initBW, ?_, rfl, by norm_num [Bits.initBW]⟩
      show compressStep initEnc 0 = _
      rw [compressStep]
      dsimp only [initEnc]
      rw [show ([] : List Nat) ++ [0] = [0] from rfl,
        dictFind_seed_single 0 (by norm_num)]
      simp [pairsList, FIRST_CODE, INITIAL_CODE_WIDTH]
    · obtain ⟨w, hst, hw, hwb⟩ := ih (by omega) (by omega)
      rw [List.range_succ, List.foldl_append, hst, List.foldl_cons, List.foldl_nil]
      rw [compressStep]
      dsimp only
      have hm1 : m - 1 + 1 = m := by omega
      rw [show ([m - 1] : List Nat) ++ [m] = [m - 1, m] from rfl]
      have hnone : dictFind
          (buildCompressionDictionary ++ pairsList (m - 1)) [m - 1, m] = none := by
        rw [dictFind_append, dictFind_seed_pair]
        rw [show (dictFind (pairsList (m - 1)) [m - 1, m]) =
          (dictFind (pairsList (m - 1)) [m - 1, (m - 1) + 1]) from by rw [hm1]]
        rw [dictFind_pairs_self]
        rfl
      rw [hnone]
      dsimp only
      rw [if_pos (show (257 + m : Nat) < MAX_DICTIONARY_SIZE from by
        norm_num [MAX_DICTIONARY_SIZE]; omega)]
      have hm255 : m ≤ 255 := by omega
      rw [if_pos hm255]
      have hpair2 : (([(m - 1 : Nat), m - 1 + 1], 258 + (m - 1)) : List Nat × Nat)
          = ([m - 1, m], 257 + m) := by
        rw [hm1]
        have h2 : 258 + (m - 1) = 257 + m := by omega
        rw [h2]
      have hpairs : pairsList (m - 1) ++ [([m - 1, m], 257 + m)] = pairsList m := by
        unfold pairsList
        conv_rhs => rw [← hm1, List.range_succ]
        rw [List.map_append]
        simp only [List.map_cons, List.map_nil]
        rw [hpair2]
      refine ⟨Bits.writeBits
        ((dictFind (buildCompressionDictionary ++ pairsList (m - 1)) [m - 1]).getD 0)
        9 w, ?_, ?_, ?_⟩
      · rw [List.append_assoc, hpairs]
        by_cases h255 : m = 255
        · subst h255
          rw [if_neg (show ¬ (255 + 1 ≤ 255) by omega),
            if_pos (show 2 ^ 9 < 257 + 255 + 1 ∧ 9 < MAX_CODE_WIDTH from by
              norm_num [MAX_CODE_WIDTH])]
        · rw [if_pos (show m + 1 ≤ 255 by omega),
            if_neg (show ¬ (2 ^ 9 < 257 + m + 1 ∧ 9 < MAX_CODE_WIDTH) from by
              rintro ⟨hlt, _⟩
              norm_num at hlt
              omega)]
          rfl
      · rw [(Bits.writeBits_totalBits _ 9 w hwb).1, hw]
        omega
      · exact (Bits.writeBits_totalBits _ 9 w hwb).2

end LZW

namespace LZW

lemma readBitsGo_exit (fuel result : Nat) (st : Bits.BRState) :
    Bits.readBitsGo 9 fuel result 9 st = (result, st) := by
  cases fuel with
  | zero => rfl
  | succ f =>
    rw [Bits.readBitsGo, if_neg]
    intro h
    exact absurd h.1 (by norm_num)

lemma fill_zeros (z : Nat) (T : List Nat) (b : Nat) :
    Bits.fillBuffer ⟨List.replicate (z + 4) 0 ++ T, 0, b, false⟩ =
      ⟨List.replicate z 0 ++ T, 0, 32, false⟩ := by
  have hsplit : List.replicate (z + 4) 0 ++ T =
      0 :: 0 :: 0 :: 0 :: (List.replicate z 0 ++ T) := by
    rw [show z + 4 = 4 + z from by omega, List.replicate_add]
    rfl
  rw [hsplit]
  simp [Bits.fillBuffer, Bits.beWord, Bits.beWordGo]

lemma read9_zeros (z b : Nat) (T : List Nat) (hz : b < 9 → 4 ≤ z) :
    Bits.readBits 9 ⟨List.replicate z 0 ++ T, 0, b, false⟩ =
      (0, ⟨List.replicate (if b < 9 then z - 4 else z) 0 ++ T, 0,
        (if b < 9 then b + 23 else b - 9), false⟩) := by
  rw [Bits.readBits, show (9 : Nat) + 2 = 10 + 1 from rfl, Bits.readBitsGo,
    if_pos (show 0 < 9 ∧
      (⟨List.replicate z 0 ++ T, 0, b, false⟩ : Bits.BRState).eof = false from
      ⟨by norm_num, rfl⟩)]
  by_cases hb9 : b < 9
  · obtain ⟨z2, rfl⟩ : ∃ z2, z = z2 + 4 := ⟨z - 4, by omega⟩
    rw [if_pos hb9, if_pos hb9]
    by_cases hb0 : b = 0
    · subst hb0
      rw [if_pos rfl, fill_zeros]
      dsimp only
      rw [if_pos (show (0:Nat) < 32 from by norm_num),
        show min (9 - 0) 32 = 9 from by omega]
      rw [show (0:Nat) / 2 ^ (32 - 9) % 2 ^ 9 = 0 from by decide,
        show (0:Nat) + 0 * 2 ^ (9 - 0 - 9) = 0 from by decide,
        show (0:Nat) + 9 = 9 from rfl,
        show (0:Nat) * 2 ^ 9 % 2 ^ 32 = 0 from by decide,
        show (32:Nat) - 9 = 23 from rfl]
      rw [readBitsGo_exit]
      rw [show z2 + 4 - 4 = z2 from by omega, show (0:Nat) + 23 = 23 from rfl]
    · rw [if_neg hb0]
      dsimp only
      rw [if_pos (show 0 < b from by omega),
        show min (9 - 0) b = b from by omega]
      rw [show (0:Nat) / 2 ^ (32 - b) % 2 ^ b = 0 from by simp,
        show (0:Nat) + 0 * 2 ^ (9 - 0 - b) = 0 from by simp,
        Nat.zero_add,
        show (0:Nat) * 2 ^ b % 2 ^ 32 = 0 from by simp,
        Nat.sub_self]
      rw [show (10:Nat) = 9 + 1 from rfl, Bits.readBitsGo,
        if_pos (show b < 9 ∧
          (⟨List.replicate (z2 + 4) 0 ++ T, 0, 0, false⟩ : Bits.BRState).eof
            = false from ⟨hb9, rfl⟩)]
      rw [if_pos rfl, fill_zeros]
      dsimp only
      rw [if_pos (show (0:Nat) < 32 from by norm_num),
        show min (9 - b) 32 = 9 - b from by omega]
      rw [show (0:Nat) / 2 ^ (32 - (9 - b)) % 2 ^ (9 - b) = 0 from by simp,
        show (0:Nat) + 0 * 2 ^ (9 - b - (9 - b)) = 0 from by simp,
        show b + (9 - b) = 9 from by omega,
        show (0:Nat) * 2 ^ (9 - b) % 2 ^ 32 = 0 from by simp,
        show 32 - (9 - b) = b + 23 from by omega]
      rw [readBitsGo_exit]
      rw [show z2 + 4 - 4 = z2 from by omega]
  · rw [if_neg hb9, if_neg hb9]
    rw [if_neg (show ¬ b = 0 from by omega)]
    dsimp only
    rw [if_pos (show 0 < b from by omega),
      show min (9 - 0) b = 9 from by omega]
    rw [show (0:Nat) / 2 ^ (32 - 9) % 2 ^ 9 = 0 from by decide,
      show (0:Nat) + 0 * 2 ^ (9 - 0 - 9) = 0 from by decide,
      show (0:Nat) + 9 = 9 from rfl,
      show (0:Nat) * 2 ^ 9 % 2 ^ 32 = 0 from by decide]
    rw [readBitsGo_exit]

lemma zeroReader_step (T : List Nat) (j : Nat) (hj : j ≤ 255) :
    Bits.readBits 9 (zeroReader T j) = (0, zeroReader T (j + 1)) := by
  rw [zeroReader, read9_zeros _ _ _ (by intro h; omega)]
  by_cases hbc : 32 * ((9 * j + 31) / 32) - 9 * j < 9
  · rw [if_pos hbc, if_pos hbc, zeroReader,
      show 288 - 4 * ((9 * j + 31) / 32) - 4 =
        288 - 4 * ((9 * (j + 1) + 31) / 32) from by omega,
      show 32 * ((9 * j + 31) / 32) - 9 * j + 23 =
        32 * ((9 * (j + 1) + 31) / 32) - 9 * (j + 1) from by omega]
  · rw [if_neg hbc, if_neg hbc, zeroReader,
      show 288 - 4 * ((9 * j + 31) / 32) =
        288 - 4 * ((9 * (j + 1) + 31) / 32) from by omega,
      show 32 * ((9 * j + 31) / 32) - 9 * j - 9 =
        32 * ((9 * (j + 1) + 31) / 32) - 9 * (j + 1) from by omega]

lemma seed_length : buildDecompressionDictionary.length = 258 := by
  rw [buildDecompressionDictionary, List.length_append, List.length_map,
    List.length_range]
  rfl

set_option maxRecDepth 2000 in
lemma dict_get_zero (l : List (List Nat)) :
    (buildDecompressionDictionary ++ l).get? 0 = some [0] := by
  rw [List.get?_append (show 0 < buildDecompressionDictionary.length from
    by rw [seed_length]; omega)]
  decide

set_option maxRecDepth 2000 in
lemma decodeLoop_zero_step (T : List Nat) (i fuel : Nat) (hi : i ≤ 253) :
    decodeLoop (fuel + 1) (zeroDecState T i) =
      decodeLoop fuel (zeroDecState T (i + 1)) := by
  have hhd : Bits.hasData (zeroReader T (1 + i)) = true := by
    rw [zeroReader]; rfl
  have hlen : 0 <
      (buildDecompressionDictionary ++ List.replicate i [0, 0]).length := by
    rw [List.length_append, seed_length]
    omega
  have hnc : 258 + i < MAX_DICTIONARY_SIZE := by
    rw [show MAX_DICTIONARY_SIZE = 32768 from rfl]; omega
  have hwide : ¬ (2 ^ 9 < 258 + i + 1 ∧ 9 < MAX_CODE_WIDTH) := by
    intro h
    have h1 := h.1
    norm_num at h1
    omega
  rw [decodeLoop]
  dsimp only [zeroDecState]
  rw [if_pos hhd, zeroReader_step T (1 + i) (by omega)]
  dsimp only
  rw [if_neg (show ¬ ((0:Nat) = STOP_CODE) from by decide),
    if_neg (show ¬ ((0:Nat) = CLEAR_CODE) from by decide)]
  rw [if_pos hlen, dict_get_zero]
  dsimp only
  rw [if_pos hnc]
  dsimp only [List.headD]
  rw [if_neg hwide]
  refine congrArg (decodeLoop fuel) ?_
  rw [show ([0] : List Nat) ++ [0] = [0, 0] from rfl,
    List.append_assoc, ← List.replicate_succ',
    ← List.replicate_succ' (1 + i) (0 : Nat),
    show 258 + i + 1 = 258 + (i + 1) from by omega,
    show 1 + i + 1 = 1 + (i + 1) from by omega]

set_option maxRecDepth 2000 in
lemma decodeLoop_zero_step_last (T : List Nat) (fuel : Nat) :
    decodeLoop (fuel + 1) (zeroDecState T 254) =
      decodeLoop fuel
        ⟨buildDecompressionDictionary ++ List.replicate 255 [0, 0], 513, 10,
          [0], zeroReader T 256, List.replicate 256 0⟩ := by
  have hhd : Bits.hasData (zeroReader T (1 + 254)) = true := by
    rw [zeroReader]; rfl
  have hlen : 0 <
      (buildDecompressionDictionary ++ List.replicate 254 [0, 0]).length := by
    rw [List.length_append, seed_length]
    omega
  have hnc : 258 + 254 < MAX_DICTIONARY_SIZE := by decide
  have hwide : 2 ^ 9 < 258 + 254 + 1 ∧ 9 < MAX_CODE_WIDTH := by
    constructor <;> decide
  rw [decodeLoop]
  dsimp only [zeroDecState]
  rw [if_pos hhd, zeroReader_step T (1 + 254) (by omega)]
  dsimp only
  rw [if_neg (show ¬ ((0:Nat) = STOP_CODE) from by decide),
    if_neg (show ¬ ((0:Nat) = CLEAR_CODE) from by decide)]
  rw [if_pos hlen, dict_get_zero]
  dsimp only
  rw [if_pos hnc]
  dsimp only [List.headD]
  rw [if_pos hwide]
  refine congrArg (decodeLoop fuel) ?_
  rw [show ([0] : List Nat) ++ [0] = [0, 0] from rfl,
    List.append_assoc, ← List.replicate_succ',
    ← List.replicate_succ' (1 + 254) (0 : Nat)]

lemma decodeLoop_zero_chain (T : List Nat) : ∀ (k i fuel : Nat),
    i + k ≤ 254 →
    decodeLoop (fuel + k) (zeroDecState T i) =
      decodeLoop fuel (zeroDecState T (i + k))
  | 0, i, fuel, _ => rfl
  | k + 1, i, fuel, h => by
      rw [show fuel + (k + 1) = (fuel + k) + 1 from rfl,
        decodeLoop_zero_step T i (fuel + k) (by omega),
        decodeLoop_zero_chain T k (i + 1) fuel (by omega),
        show i + 1 + k = i + (k + 1) from by omega]

set_option maxRecDepth 2000 in
lemma decompress_zeros_entry (T : List Nat) (fuel : Nat) :
    decompressData fuel (List.replicate 288 0 ++ T) =
      decodeLoop fuel (zeroDecState T 0) := by
  rw [decompressData]
  have hinit : Bits.initBR (List.replicate 288 0 ++ T) = zeroReader T 0 := by
    rw [Bits.initBR, zeroReader]
  rw [show INITIAL_CODE_WIDTH = 9 from rfl, hinit,
    zeroReader_step T 0 (by norm_num)]
  dsimp only
  rw [if_neg (show ¬ ((0:Nat) = STOP_CODE) from by decide),
    if_neg (show ¬ (buildDecompressionDictionary.length ≤ 0) from by decide),
    show buildDecompressionDictionary.get? 0 = some [0] from by decide]
  dsimp only
  refine congrArg (decodeLoop fuel) ?_
  rw [zeroDecState]
  simp [FIRST_CODE, INITIAL_CODE_WIDTH]

end LZW

set_option maxRecDepth 4000 in
set_option maxHeartbeats 1000000 in
/-- Claim C1 failure exhibit (the round-trip law): LZW breaks it.
First conjunct: compressing the single byte 0x58 yields the three bytes
2C 40 40, and decompressing them never terminates - the first 9-bit read
refills all three bytes, latching endOfFile_ with 15 bits still buffered,
after which every further read returns 0 without consuming anything, so
the decode loop spins on code 0 forever (out of fuel for every fuel).
Second conjunct: on the six-byte input 00 01 02 03 04 05 decompression
terminates, reports success, and returns 00 01 02 30 04 05: the fourth
code straddles the writer's 32-bit register and is scrambled from 3 to
48.  In both cases decompress(compress(S)) differs from S. -/
theorem lzw_roundtrip_fails :
    (∀ fuel, LZW.decompressData fuel (LZW.compressData [88]) =
      LZW.DecodeResult.outOfFuel) ∧
    LZW.decompressData 100 (LZW.compressData [0, 1, 2, 3, 4, 5]) =
      LZW.DecodeResult.ok [0, 1, 2, 48, 4, 5] := by
  constructor
  · intro fuel
    have hc : LZW.compressData [88] = [44, 64, 64] := by decide
    rw [hc]
    have hd : LZW.decompressData fuel [44, 64, 64] =
        LZW.decodeLoop fuel
          ⟨LZW.buildDecompressionDictionary, LZW.FIRST_CODE,
            LZW.INITIAL_CODE_WIDTH, [88],
            ⟨[], Bits.beWord [44, 64, 64] * 2 ^ 9 % 2 ^ 32, 15, true⟩, [88]⟩ := rfl
    rw [hd]
    exact LZW.decodeLoop_stuck fuel _ rfl (by norm_num) (by decide)
  · decide

set_option maxRecDepth 4000 in
set_option maxHeartbeats 2000000 in
/-- Claim C3 refutation: the encoder and decoder do not widen in lockstep.
First conjunct (proved by induction, lzw_encoder_schedule): after the 256
strictly increasing input bytes 0..255 the encoder has emitted exactly
255 nine-bit codes (2295 bits) and sits at code width 10, so its 256th
data code is emitted with 10 bits.
Second conjunct: the decoder keeps reading 9-bit codes through its 256th
read - a stream of 256 nine-bit codes followed by a 10-bit STOP parses
completely and successfully.
Third conjunct: a stream laid out on the encoder's schedule - 255
nine-bit codes followed by 10-bit codes - desynchronises the decoder,
which misparses the tail and never reaches the STOP code (out of fuel;
the reader end-of-file latch then spins forever).  The decoder widens one
code later than the encoder because its insertion number 255 happens only
after its 256th read, while the encoder makes insertion 255 right after
its 255th emission. -/
theorem lzw_width_escalation_desync :
    (∃ w : Bits.BWState,
        (List.range 256).foldl LZW.compressStep LZW.initEnc =
          ⟨LZW.buildCompressionDictionary ++ LZW.pairsList 255, 513, 10, [255], w⟩ ∧
          Bits.totalBits w = 9 * 255 ∧ w.bits ≤ 31) ∧
    LZW.decompressData 300 (List.replicate 288 0 ++ [64, 64]) =
      LZW.DecodeResult.ok (List.replicate 256 0) ∧
    LZW.decompressData 300 (List.replicate 288 0 ++ [32, 32]) =
      LZW.DecodeResult.outOfFuel := by
  refine ⟨?_, ?_, ?_⟩
  · have h := LZW.lzw_encoder_schedule 256 (by norm_num) (by norm_num)
    simpa using h
  · rw [LZW.decompress_zeros_entry [64, 64] 300,
      show (300 : Nat) = 46 + 254 from rfl,
      LZW.decodeLoop_zero_chain [64, 64] 254 0 46 (by omega),
      show (0 : Nat) + 254 = 254 from by norm_num,
      show (46 : Nat) = 45 + 1 from rfl,
      LZW.decodeLoop_zero_step_last [64, 64] 45]
    rw [show LZW.zeroReader [64, 64] 256 = ⟨[64, 64], 0, 0, false⟩ from by
      rw [LZW.zeroReader]; norm_num]
    rw [show (45 : Nat) = 44 + 1 from rfl, LZW.decodeLoop]
    rw [if_pos (show Bits.hasData ⟨[64, 64], 0, 0, false⟩ = true from by decide)]
    dsimp only
    rw [show Bits.readBits 10 ⟨[64, 64], 0, 0, false⟩ =
        (257, ⟨[], 0, 6, true⟩) from by decide]
    dsimp only
    rw [if_pos (show (257 : Nat) = LZW.STOP_CODE from rfl)]
  · rw [LZW.decompress_zeros_entry [32, 32] 300,
      show (300 : Nat) = 46 + 254 from rfl,
      LZW.decodeLoop_zero_chain [32, 32] 254 0 46 (by omega),
      show (0 : Nat) + 254 = 254 from by norm_num,
      show (46 : Nat) = 45 + 1 from rfl,
      LZW.decodeLoop_zero_step_last [32, 32] 45]
    rw [show LZW.zeroReader [32, 32] 256 = ⟨[32, 32], 0, 0, false⟩ from by
      rw [LZW.zeroReader]; norm_num]
    rw [show (45 : Nat) = 44 + 1 from rfl, LZW.decodeLoop]
    rw [if_pos (show Bits.hasData ⟨[32, 32], 0, 0, false⟩ = true from by decide)]
    dsimp only
    rw [show Bits.readBits 10 ⟨[32, 32], 0, 0, false⟩ =
        (128, ⟨[], 2147483648, 6, true⟩) from by decide]
    dsimp only
    rw [if_neg (show ¬ ((128 : Nat) = LZW.STOP_CODE) from by decide),
      if_neg (show ¬ ((128 : Nat) = LZW.CLEAR_CODE) from by decide)]
    have hlen128 : 128 < (LZW.buildDecompressionDictionary ++
        List.replicate 255 [0, 0]).length := by
      rw [List.length_append, LZW.seed_length]
      omega
    have hget128 : (LZW.buildDecompressionDictionary ++
        List.replicate 255 [0, 0]).get? 128 = some [128] := by
      rw [List.get?_append
        (show 128 < LZW.buildDecompressionDictionary.length from by
          rw [LZW.seed_length]; omega)]
      decide
    have hnc3 : (513 : Nat) < LZW.MAX_DICTIONARY_SIZE := by decide
    have hwide3 : ¬ (2 ^ 10 < 513 + 1 ∧ 10 < LZW.MAX_CODE_WIDTH) := by
      intro h
      have h1 := h.1
      norm_num at h1
    rw [if_pos hlen128, hget128]
    dsimp only
    rw [if_pos hnc3]
    dsimp only [List.headD]
    rw [if_neg hwide3]
    exact LZW.decodeLoop_stuck 44 _ rfl (by norm_num) (by simp)

set_option maxRecDepth 2000 in
/-- Counterexample for claim C10: the 4-byte LZW file 00 40 25 80 encodes
the 9-bit codes 0, 256 (CLEAR), 300.  The first code is bounds-checked
and accepted; after the CLEAR the decoder reads 300 and indexes the
freshly re-seeded 258-entry dictionary out of bounds - the access
dict[prev_code] after a CLEAR is not checked and is not always valid. -/
theorem lzw_post_clear_oob :
    LZW.decompressData 10 [0, 64, 37, 128] = LZW.DecodeResult.oob := by decide

set_option maxRecDepth 2000 in
/-- Claim C10 as amended: the code read immediately after a CLEAR is used
unchecked, and the access dict[prev_code] stays in bounds exactly when
that 9-bit code is STOP (257) or below the re-seeded dictionary size
(258); every code of 258 or more makes the access go out of bounds. -/
theorem lzw_post_clear_code_unchecked (r : Bits.BRState) :
    LZW.clearStep r = LZW.ClearRes.oob ↔ 258 ≤ (Bits.readBits 9 r).1 := by
  have hlen : LZW.buildDecompressionDictionary.length = 258 := by decide
  rcases hpr : Bits.readBits LZW.INITIAL_CODE_WIDTH r with ⟨p, r1⟩
  have h9 : (Bits.readBits 9 r).1 = p := by
    rw [show (9 : Nat) = LZW.INITIAL_CODE_WIDTH from rfl, hpr]
  rw [LZW.clearStep, hpr, h9]
  dsimp only
  by_cases hp : p = LZW.STOP_CODE
  · rw [if_pos hp, hp]
    simp [LZW.STOP_CODE]
  · rw [if_neg hp]
    cases hg : LZW.buildDecompressionDictionary.get? p with
    | none =>
      simp only [hg]
      constructor
      · intro _
        have := List.get?_eq_none.mp hg
        omega
      · intro _; trivial
    | some s =>
      simp only [hg]
      constructor
      · intro hc; exact absurd hc (by simp)
      · intro hge
        exfalso
        rw [List.get?_eq_none.mpr (by omega)] at hg
        cases hg

set_option maxRecDepth 2000 in
/-- Counterexample for claim C4: Huffman compression of the empty
sequence does not succeed with a 4-byte zero header; the empty frequency
table is rejected with an error before any output is written
(huffman.cpp lines 14-17). -/
theorem huffman_empty_compress_fails : Huffman.compress [] = none := by decide

set_option maxRecDepth 2000 in
/-- Claim C4 as amended: compressing the empty sequence succeeds for RLE
(0 bytes) and for LZW (exactly 2 bytes, 80 80, holding only the STOP
code), and decompressing those outputs yields the empty sequence; Huffman
compression, however, rejects the empty input with an error instead of
writing the 4-byte zero-size header. -/
theorem empty_input_compression :
    (RLE.compress [] = [] ∧ RLE.decompress [] = some []) ∧
    (LZW.compressData [] = [128, 128] ∧
      ∀ fuel, LZW.decompressData fuel [128, 128] = LZW.DecodeResult.ok []) ∧
    Huffman.compress [] = none := by
  refine ⟨⟨rfl, rfl⟩, ⟨by decide, fun fuel => rfl⟩, ?_⟩
  decide

/-- Any list all of whose elements are b is a replicate of b. -/
lemma eq_replicate_of_forall {S : List Nat} {b : Nat} (h : ∀ x ∈ S, x = b) :
    S = List.replicate S.length b := by
  induction S with
  | nil => rfl
  | cons a t ih =>
    have ha : a = b := h a (by simp)
    have ht := ih (fun x hx => h x (by simp [hx]))
    rw [List.length_cons, List.replicate_succ, ← ht, ha]

/-- A filter over an initial segment whose predicate holds exactly at b
picks out exactly b. -/
lemma filter_range_single (p : Nat → Bool) (b : Nat)
    (hp : ∀ x, p x = true ↔ x = b) :
    ∀ n, b < n → (List.range n).filter p = [b]
  | 0, h => absurd h (by omega)
  | n + 1, h => by
      rw [List.range_succ, List.filter_append]
      by_cases hb : b < n
      · rw [filter_range_single p b hp n hb]
        have hn : p n = false := by
          rcases hpn : p n with _ | _
          · rfl
          · exact absurd ((hp n).mp hpn) (by omega)
        simp [hn]
      · obtain rfl : b = n := by omega
        rw [List.filter_eq_nil.mpr, List.filter_cons_of_pos]
        · rfl
        · exact (hp b).mpr rfl
        · intro x hx
          simp only [List.mem_range] at hx
          rcases hpx : p x with _ | _
          · simp
          · exact absurd ((hp x).mp hpx) (by omega)

/-- The frequency table of a constant non-empty input is the single entry
(b, length). -/
lemma freqTable_const (S : List Nat) (b : Nat) (hS : S ≠ [])
    (hb : ∀ x ∈ S, x = b) (hlt : b < 256) :
    Huffman.freqTable S = [(b, S.length)] := by
  have hrep := eq_replicate_of_forall hb
  have hcount : ∀ x, S.count x = if x = b then S.length else 0 := by
    intro x
    rw [hrep, List.count_replicate, List.length_replicate]
    by_cases hx : x = b
    · simp [hx]
    · simp [hx, Ne.symm hx]
  have hpos : 0 < S.length := List.length_pos.mpr hS
  have hfil : (List.range 256).filter (fun x => 0 < S.count x) = [b] := by
    refine filter_range_single _ b ?_ 256 hlt
    intro x
    simp only [decide_eq_true_eq]
    rw [hcount x]
    by_cases hx : x = b
    · simp [hx, hpos]
    · simp [hx]
  unfold Huffman.freqTable
  rw [hfil]
  simp only [List.map_cons, List.map_nil]
  rw [hcount b, if_pos rfl]

/-- Reading back a written little-endian u32. -/
lemma readU32_toLE32 (n : Nat) (r : List Nat) (h : n < 2 ^ 32) :
    Huffman.readU32LE (Huffman.toLE32 n ++ r) = some (n, r) := by
  show Huffman.readU32LE (n % 256 :: n / 256 % 256 :: n / 65536 % 256 ::
    n / 16777216 % 256 :: r) = some (n, r)
  rw [Huffman.readU32LE]
  have : n % 256 + 256 * (n / 256 % 256) + 65536 * (n / 65536 % 256) +
      16777216 * (n / 16777216 % 256) = n := by omega
  rw [this]

/-- Claim C8 exhibit.  The compression half of the claim holds: a
non-empty input with a single distinct byte compresses to the 32-bit
original size followed by that byte (5 bytes).  But decompressing that
very file does not emit original_size copies of the byte: the 4-byte read
of tree_bit_count fails (only one byte remains) and sets the stream
failbit, which readCompressedFile never clears, so the subsequent
seekg(4) and the one-byte read of the symbol are both no-ops and the
function writes original_size copies of an uninitialised byte.  The
indeterminate outcome is modelled as failure. -/
theorem huffman_single_symbol (S : List Nat) (b : Nat) (hS : S ≠ [])
    (hb : ∀ x ∈ S, x = b) (hlt : b < 256) (hlen : S.length < 2 ^ 32) :
    Huffman.compress S = some (Huffman.toLE32 S.length ++ [b]) ∧
    Huffman.decompress (Huffman.toLE32 S.length ++ [b]) = none := by
  have hft := freqTable_const S b hS hb hlt
  constructor
  · unfold Huffman.compress
    rw [hft]
    dsimp only
    rw [if_neg (by simp),
      if_pos (show ([((b : Nat), S.length)].length = 1) from rfl)]
    rw [Nat.mod_eq_of_lt hlen]
  · unfold Huffman.decompress
    rw [readU32_toLE32 S.length [b] hlen]
    dsimp only
    rw [if_neg (by
      intro h0
      exact hS (List.eq_nil_of_length_eq_zero h0))]
    rfl

/-- Witness for the C8 exhibit at the specification's concrete scenario:
the single byte 0x58 compresses to 01 00 00 00 58, and decompressing
that file does not recover 0x58 (the symbol read never executes). -/
theorem huffman_single_symbol_witness :
    Huffman.compress [88] = some [1, 0, 0, 0, 88] ∧
    Huffman.decompress [1, 0, 0, 0, 88] = none := by
  have h := huffman_single_symbol [88] 88 (by simp) (by simp) (by norm_num)
    (by norm_num)
  simpa [Huffman.toLE32] using h

namespace Huffman

lemma leafWeight_freq : ∀ t : HTree, wfT t → t.frequency = leafWeight t
  | .leaf _ _, _ => rfl
  | .node f l r, h => by
      show f = leafWeight (.node f l r)
      exact h.2.2

lemma wsum_eq : ∀ (t : HTree), wfT t → ∀ d, wsum t d = cost t + d * leafWeight t
  | .leaf c f, _, d => by simp [wsum, cost, leafWeight]; ring
  | .node f l r, h, d => by
      rw [wsum, cost, wsum_eq l h.1, wsum_eq r h.2.1, leafWeight]
      have hf : f = leafWeight l + leafWeight r := h.2.2
      rw [hf]; ring

lemma popMin_none : ∀ l : List HTree, popMin l = none ↔ l = []
  | [] => by simp [popMin]
  | t :: rest => by
      rw [popMin]
      cases h : popMin rest with
      | none => simp
      | some p =>
        rcases p with ⟨m, rest'⟩
        by_cases hk : keyLT m t <;> simp [hk]

lemma popMin_perm : ∀ l : List HTree, ∀ t rest,
    popMin l = some (t, rest) → l.Perm (t :: rest)
  | [], t, rest, h => by simp [popMin] at h
  | a :: l, t, rest, h => by
      rw [popMin] at h
      cases hp : popMin l with
      | none =>
        rw [hp] at h
        dsimp only at h
        obtain rfl : l = [] := (popMin_none l).mp hp
        rw [Option.some.injEq, Prod.mk.injEq] at h
        obtain ⟨rfl, rfl⟩ := h
        exact List.Perm.refl _
      | some p =>
        rcases p with ⟨m, rest2⟩
        rw [hp] at h
        dsimp only at h
        have hperm := popMin_perm l m rest2 hp
        by_cases hk : keyLT m a
        · rw [if_pos hk, Option.some.injEq, Prod.mk.injEq] at h
          obtain ⟨rfl, rfl⟩ := h
          exact (hperm.cons a).trans (List.Perm.swap _ _ _)
        · rw [if_neg hk, Option.some.injEq, Prod.mk.injEq] at h
          obtain ⟨rfl, rfl⟩ := h
          exact List.Perm.refl _

lemma not_keyLT_trans {a b c : HTree} (h1 : ¬ keyLT a b) (h2 : ¬ keyLT b c) :
    ¬ keyLT a c := by
  unfold keyLT at *
  omega

lemma keyLT_asymm {a b : HTree} (h : keyLT a b) : ¬ keyLT b a := by
  unfold keyLT at *
  omega

lemma popMin_min : ∀ l : List HTree, ∀ t rest,
    popMin l = some (t, rest) → ∀ u ∈ rest, ¬ keyLT u t
  | [], t, rest, h => by simp [popMin] at h
  | a :: l, t, rest, h => by
      rw [popMin] at h
      cases hp : popMin l with
      | none =>
        rw [hp] at h
        dsimp only at h
        rw [Option.some.injEq, Prod.mk.injEq] at h
        obtain ⟨rfl, rfl⟩ := h
        intro u hu
        simp at hu
      | some p =>
        rcases p with ⟨m, rest2⟩
        rw [hp] at h
        dsimp only at h
        have hmin := popMin_min l m rest2 hp
        have hperm := popMin_perm l m rest2 hp
        by_cases hk : keyLT m a
        · rw [if_pos hk, Option.some.injEq, Prod.mk.injEq] at h
          obtain ⟨rfl, rfl⟩ := h
          intro u hu
          rcases List.mem_cons.mp hu with rfl | hu2
          · exact keyLT_asymm hk
          · exact hmin u hu2
        · rw [if_neg hk, Option.some.injEq, Prod.mk.injEq] at h
          obtain ⟨rfl, rfl⟩ := h
          intro u hu
          rcases List.mem_cons.mp ((hperm.mem_iff).mp hu) with rfl | hu2
          · exact hk
          · exact not_keyLT_trans (hmin u hu2) hk

/-- The popped element has the smallest stored frequency. -/
lemma popMin_freq_min (l : List HTree) (t : HTree) (rest : List HTree)
    (h : popMin l = some (t, rest)) :
    ∀ u ∈ rest, t.frequency ≤ u.frequency := by
  intro u hu
  have := popMin_min l t rest h u hu
  unfold keyLT at this
  omega

lemma popMin_length (l : List HTree) (t : HTree) (rest : List HTree)
    (h : popMin l = some (t, rest)) : rest.length + 1 = l.length := by
  have := (popMin_perm l t rest h).length_eq
  simp at this
  omega

lemma popMin_mem (l : List HTree) (t : HTree) (rest : List HTree)
    (h : popMin l = some (t, rest)) : t ∈ l :=
  (popMin_perm l t rest h).mem_iff.mpr (by simp)

lemma popMin_rest_subset (l : List HTree) (t : HTree) (rest : List HTree)
    (h : popMin l = some (t, rest)) : ∀ u ∈ rest, u ∈ l := by
  intro u hu
  exact (popMin_perm l t rest h).mem_iff.mpr (by simp [hu])

lemma codes_nonempty : ∀ (t : HTree) (pfx : List Bool),
    ∀ p ∈ generateCodes t pfx, p.2 ≠ []
  | .leaf c f, pfx, p, hp => by
      rw [generateCodes, List.mem_singleton] at hp
      subst hp
      cases pfx <;> simp
  | .node f l r, pfx, p, hp => by
      rw [generateCodes] at hp
      rcases List.mem_append.mp hp with h | h
      · exact codes_nonempty l _ p h
      · exact codes_nonempty r _ p h

lemma codesPrefixOf : ∀ (t : HTree) (pfx : List Bool), pfx ≠ [] →
    ∀ p ∈ generateCodes t pfx, pfx <+: p.2
  | .leaf c f, pfx, hne, p, hp => by
      rw [generateCodes, List.mem_singleton] at hp
      subst hp
      simp [List.isEmpty_iff, hne]
  | .node f l r, pfx, hne, p, hp => by
      rw [generateCodes] at hp
      rcases List.mem_append.mp hp with h | h
      · exact (List.prefix_append pfx [false]).trans
          (codesPrefixOf l _ (by simp) p h)
      · exact (List.prefix_append pfx [true]).trans
          (codesPrefixOf r _ (by simp) p h)

lemma codes_pairwise : ∀ (t : HTree) (pfx : List Bool),
    (generateCodes t pfx).Pairwise
      (fun p q => ¬ p.2 <+: q.2 ∧ ¬ q.2 <+: p.2)
  | .leaf c f, pfx => by
      rw [generateCodes]
      exact List.pairwise_singleton _ _
  | .node f l r, pfx => by
      rw [generateCodes]
      refine List.pairwise_append.mpr
        ⟨codes_pairwise l _, codes_pairwise r _, ?_⟩
      intro p hp q hq
      have hl := codesPrefixOf l (pfx ++ [false]) (by simp) p hp
      have hr := codesPrefixOf r (pfx ++ [true]) (by simp) q hq
      have hdiff : ¬ ((pfx ++ [false]) <+: (pfx ++ [true])) ∧
          ¬ ((pfx ++ [true]) <+: (pfx ++ [false])) := by
        constructor <;>
        · intro hc
          have := hc.eq_of_length (by simp)
          simp at this
      constructor
      · intro hc
        rcases List.prefix_or_prefix_of_prefix (hl.trans hc) hr with h1 | h1
        · exact absurd h1 hdiff.1
        · exact absurd h1 hdiff.2
      · intro hc
        rcases List.prefix_or_prefix_of_prefix (hr.trans hc) hl with h1 | h1
        · exact absurd h1 hdiff.2
        · exact absurd h1 hdiff.1

lemma codes_sum (W : Nat → Nat) : ∀ (t : HTree) (pfx : List Bool), pfx ≠ [] →
    (∀ p ∈ leaves t, p.2 = W p.1) →
    ((generateCodes t pfx).map (fun p => W p.1 * p.2.length)).sum =
      wsum t pfx.length
  | .leaf c f, pfx, hne, hw => by
      rw [generateCodes]
      rw [show (if pfx.isEmpty then [false] else pfx) = pfx from by
        rw [if_neg (by rwa [List.isEmpty_iff])]]
      have hf : f = W c := hw (c, f) (by rw [leaves]; simp)
      rw [wsum, hf]
      simp [Nat.mul_comm]
  | .node f l r, pfx, hne, hw => by
      rw [generateCodes, List.map_append, List.sum_append,
        codes_sum W l _ (by simp) (fun p hp => hw p (by rw [leaves]; simp [hp])),
        codes_sum W r _ (by simp) (fun p hp => hw p (by rw [leaves]; simp [hp])),
        wsum]
      simp

lemma take_sum_orderedInsert : ∀ (l : List Nat) (x j : Nat), l.Sorted (· ≤ ·) →
    j ≤ l.length →
    ((List.orderedInsert (· ≤ ·) x l).take j).sum ≤ (l.take j).sum
  | _, _, 0, _, _ => by simp
  | [], _, j+1, _, h => by simp at h
  | y :: l, x, j+1, hs, h => by
      have hy : ∀ b ∈ l, y ≤ b := (List.sorted_cons.mp hs).1
      have hl : l.Sorted (· ≤ ·) := (List.sorted_cons.mp hs).2
      rw [List.orderedInsert]
      by_cases hxy : x ≤ y
      · rw [if_pos hxy, List.take_succ_cons, List.take_succ_cons,
          List.sum_cons, List.sum_cons]
        have hins : List.orderedInsert (· ≤ ·) y l = y :: l := by
          cases l with
          | nil => rfl
          | cons z l2 => rw [List.orderedInsert, if_pos (hy z (by simp))]
        have h1 := take_sum_orderedInsert l y j hl (by simpa using h)
        rw [hins] at h1
        omega
      · rw [if_neg hxy, List.take_succ_cons, List.take_succ_cons,
          List.sum_cons, List.sum_cons]
        have h1 := take_sum_orderedInsert l x j hl (by simpa using h)
        omega

lemma ssum_cons_le (x : Nat) (l : List Nat) (j : Nat) (h : j ≤ l.length) :
    ssum j (x :: l) ≤ ssum j l := by
  rw [ssum, ssum, sortNats, sortNats, List.insertionSort]
  exact take_sum_orderedInsert _ x j (List.sorted_insertionSort _ l)
    (by rw [List.length_insertionSort]; exact h)

lemma ssum_le_sum (j : Nat) (l : List Nat) : ssum j l ≤ l.sum := by
  rw [ssum]
  have h1 := List.sum_take_add_sum_drop (sortNats l) j
  have h2 : (sortNats l).sum = l.sum := (List.perm_insertionSort _ l).sum_eq
  omega

lemma ssum_two_min (a b : Nat) (rest l : List Nat) (j : Nat)
    (hperm : List.Perm l (a :: b :: rest)) (hab : a ≤ b)
    (hb : ∀ u ∈ rest, b ≤ u) :
    ssum (j + 2) l = a + b + ssum j rest := by
  have hsr : (sortNats rest).Sorted (· ≤ ·) := List.sorted_insertionSort _ rest
  have hmem : ∀ u ∈ sortNats rest, b ≤ u := by
    intro u hu
    exact hb u ((List.perm_insertionSort _ rest).mem_iff.mp hu)
  have hsorted : (a :: b :: sortNats rest).Sorted (· ≤ ·) := by
    rw [List.sorted_cons, List.sorted_cons]
    refine ⟨?_, hmem, hsr⟩
    intro c hc
    rcases List.mem_cons.mp hc with rfl | hc2
    · exact hab
    · exact hab.trans (hmem c hc2)
  have hp2 : List.Perm (sortNats l) (a :: b :: sortNats rest) := by
    refine ((List.perm_insertionSort _ l).trans hperm).trans ?_
    exact ((List.perm_insertionSort _ rest).symm.cons b).cons a
  have heq : sortNats l = a :: b :: sortNats rest :=
    List.eq_of_perm_of_sorted hp2 (List.sorted_insertionSort _ l) hsorted
  rw [ssum, ssum, heq, show j + 2 = (j + 1) + 1 from rfl, List.take_succ_cons,
    List.take_succ_cons, List.sum_cons, List.sum_cons]
  omega

lemma mergeSumGo_short (fuel : Nat) (pq : List HTree) (h : pq.length ≤ 1) :
    mergeSumGo fuel pq = 0 := by
  cases fuel with
  | zero => rfl
  | succ f => rw [mergeSumGo, if_pos h]

lemma pops_of_two_le (pq : List HTree) (h : 2 ≤ pq.length) :
    ∃ right pq1 left pq2, popMin pq = some (right, pq1) ∧
      popMin pq1 = some (left, pq2) ∧ pq2.length + 2 = pq.length := by
  cases h1 : popMin pq with
  | none =>
    rw [popMin_none] at h1
    subst h1
    simp at h
  | some p =>
    rcases p with ⟨right, pq1⟩
    have hl1 := popMin_length pq right pq1 h1
    cases h2 : popMin pq1 with
    | none =>
      rw [popMin_none] at h2
      subst h2
      simp at hl1
      omega
    | some q =>
      rcases q with ⟨left, pq2⟩
      have hl2 := popMin_length pq1 left pq2 h2
      exact ⟨right, pq1, left, pq2, rfl, h2, by omega⟩

lemma mergeStep_eq (pq : List HTree) (right : HTree) (pq1 : List HTree)
    (left : HTree) (pq2 : List HTree) (h1 : popMin pq = some (right, pq1))
    (h2 : popMin pq1 = some (left, pq2)) :
    mergeStep pq =
      HTree.node (left.frequency + right.frequency) left right :: pq2 := by
  rw [mergeStep, h1]
  dsimp only
  rw [h2]

lemma mergeStep_short (pq : List HTree) (h : pq.length ≤ 1) :
    mergeStep pq = pq := by
  match pq, h with
  | [], _ => rfl
  | [t], _ => rfl

lemma mergeSumGo_step (fuel : Nat) (pq : List HTree) (right : HTree)
    (pq1 : List HTree) (left : HTree) (pq2 : List HTree)
    (hlen : ¬ pq.length ≤ 1) (h1 : popMin pq = some (right, pq1))
    (h2 : popMin pq1 = some (left, pq2)) :
    mergeSumGo (fuel + 1) pq =
      (left.frequency + right.frequency) + mergeSumGo fuel (mergeStep pq) := by
  rw [mergeSumGo, if_neg hlen, h1]
  dsimp only
  rw [h2]
  dsimp only
  rw [mergeStep_eq pq right pq1 left pq2 h1 h2]

lemma mergeStep_freqSum (pq : List HTree) :
    ((mergeStep pq).map HTree.frequency).sum = (pq.map HTree.frequency).sum := by
  by_cases h : 2 ≤ pq.length
  · obtain ⟨right, pq1, left, pq2, h1, h2, _⟩ := pops_of_two_le pq h
    rw [mergeStep_eq pq right pq1 left pq2 h1 h2]
    have e1 := ((popMin_perm pq right pq1 h1).map HTree.frequency).sum_eq
    have e2 := ((popMin_perm pq1 left pq2 h2).map HTree.frequency).sum_eq
    simp only [List.map_cons, List.sum_cons, HTree.frequency] at e1 e2 ⊢
    omega
  · rw [mergeStep_short pq (by omega)]

lemma mergeStep_length (pq : List HTree) (h : 2 ≤ pq.length) :
    (mergeStep pq).length + 1 = pq.length := by
  obtain ⟨right, pq1, left, pq2, h1, h2, hl⟩ := pops_of_two_le pq h
  rw [mergeStep_eq pq right pq1 left pq2 h1 h2]
  simp only [List.length_cons]
  omega

lemma mergeIter_short : ∀ (m : Nat) (pq : List HTree), pq.length ≤ 1 →
    mergeStep^[m] pq = pq
  | 0, pq, _ => rfl
  | m+1, pq, h => by
      rw [Function.iterate_succ_apply, mergeStep_short pq h,
        mergeIter_short m pq h]

lemma mergeIter_length : ∀ (m : Nat) (pq : List HTree), m + 1 ≤ pq.length →
    (mergeStep^[m] pq).length + m = pq.length
  | 0, pq, _ => by simp
  | m+1, pq, h => by
      rw [Function.iterate_succ_apply]
      have hs := mergeStep_length pq (by omega)
      have hrec := mergeIter_length m (mergeStep pq) (by omega)
      omega

lemma mergeIter_freqSum : ∀ (m : Nat) (pq : List HTree),
    ((mergeStep^[m] pq).map HTree.frequency).sum =
      (pq.map HTree.frequency).sum
  | 0, pq => rfl
  | m+1, pq => by
      rw [Function.iterate_succ_apply, mergeIter_freqSum m, mergeStep_freqSum]

lemma mergeSumGo_split : ∀ (m fuel : Nat) (pq : List HTree), m ≤ fuel →
    mergeSumGo fuel pq =
      mergeSumGo m pq + mergeSumGo (fuel - m) (mergeStep^[m] pq)
  | 0, fuel, pq, _ => by simp [mergeSumGo]
  | m+1, fuel, pq, h => by
      match fuel, h with
      | f+1, h =>
        by_cases hlen : pq.length ≤ 1
        · rw [mergeSumGo_short (f+1) pq hlen, mergeSumGo_short (m+1) pq hlen,
            mergeIter_short (m+1) pq hlen, mergeSumGo_short _ pq hlen]
        · have h2 : 2 ≤ pq.length := by omega
          obtain ⟨right, pq1, left, pq2, h1, h2', _⟩ := pops_of_two_le pq h2
          rw [mergeSumGo_step f pq right pq1 left pq2 hlen h1 h2',
            mergeSumGo_step m pq right pq1 left pq2 hlen h1 h2',
            mergeSumGo_split m f (mergeStep pq) (by omega),
            Function.iterate_succ_apply, Nat.succ_sub_succ]
          omega

lemma mergeSumGo_le_ssum : ∀ (m : Nat) (pq : List HTree), 2 * m ≤ pq.length →
    mergeSumGo m pq ≤ ssum (2 * m) (pq.map HTree.frequency)
  | 0, pq, _ => by simp [mergeSumGo, ssum]
  | m+1, pq, h => by
      have h2 : 2 ≤ pq.length := by omega
      obtain ⟨right, pq1, left, pq2, h1, h2', hl⟩ := pops_of_two_le pq h2
      have hlen : ¬ pq.length ≤ 1 := by omega
      rw [mergeSumGo_step m pq right pq1 left pq2 hlen h1 h2',
        mergeStep_eq pq right pq1 left pq2 h1 h2']
      have hab : right.frequency ≤ left.frequency :=
        popMin_freq_min pq right pq1 h1 left (popMin_mem pq1 left pq2 h2')
      have hmin2 := popMin_freq_min pq1 left pq2 h2'
      have hperm : List.Perm (pq.map HTree.frequency)
          (right.frequency :: left.frequency :: pq2.map HTree.frequency) := by
        have p1 := (popMin_perm pq right pq1 h1).map HTree.frequency
        have p2 := (popMin_perm pq1 left pq2 h2').map HTree.frequency
        simp only [List.map_cons] at p1 p2
        exact p1.trans (p2.cons right.frequency)
      have hss := ssum_two_min right.frequency left.frequency
        (pq2.map HTree.frequency) (pq.map HTree.frequency) (2 * m) hperm hab
        (by
          intro u hu
          obtain ⟨v, hv, rfl⟩ := List.mem_map.mp hu
          exact hmin2 v hv)
      have hih := mergeSumGo_le_ssum m
        (HTree.node (left.frequency + right.frequency) left right :: pq2)
        (by simp only [List.length_cons]; omega)
      simp only [List.map_cons] at hih
      rw [show HTree.frequency
            (HTree.node (left.frequency + right.frequency) left right) =
          left.frequency + right.frequency from rfl] at hih
      have hcons := ssum_cons_le (left.frequency + right.frequency)
        (pq2.map HTree.frequency) (2 * m)
        (by rw [List.length_map]; omega)
      have hgoal : 2 * (m + 1) = 2 * m + 2 := by ring
      have hchain := hih.trans hcons
      rw [hgoal, hss]
      omega

lemma mergeSumGo_budget : ∀ (L fuel : Nat) (pq : List HTree),
    pq.length ≤ 2 ^ L →
    mergeSumGo fuel pq ≤ L * (pq.map HTree.frequency).sum
  | 0, fuel, pq, h => by
      rw [mergeSumGo_short fuel pq (by simpa using h)]
      simp
  | L+1, fuel, pq, h => by
      by_cases hsmall : pq.length ≤ 2 ^ L
      · exact (mergeSumGo_budget L fuel pq hsmall).trans
          (Nat.mul_le_mul_right _ (by omega))
      · have hpow : 2 ^ (L+1) = 2 * 2 ^ L := by ring
        have hpos : 0 < 2 ^ L := Nat.two_pow_pos L
        by_cases hf : fuel ≤ pq.length - 2 ^ L
        · have hs := mergeSumGo_le_ssum fuel pq (by omega)
          have hle := ssum_le_sum (2 * fuel) (pq.map HTree.frequency)
          have hone : (pq.map HTree.frequency).sum ≤
              (L + 1) * (pq.map HTree.frequency).sum :=
            Nat.le_mul_of_pos_left _ (by omega)
          exact (hs.trans hle).trans hone
        · have hsplit := mergeSumGo_split (pq.length - 2 ^ L) fuel pq (by omega)
          have hS := (mergeSumGo_le_ssum (pq.length - 2 ^ L) pq
            (by omega)).trans (ssum_le_sum _ _)
          have hlen := mergeIter_length (pq.length - 2 ^ L) pq (by omega)
          have hsum := mergeIter_freqSum (pq.length - 2 ^ L) pq
          have hIH := mergeSumGo_budget L (fuel - (pq.length - 2 ^ L))
            (mergeStep^[pq.length - 2 ^ L] pq) (by omega)
          rw [hsum] at hIH
          rw [hsplit]
          calc mergeSumGo (pq.length - 2 ^ L) pq +
              mergeSumGo (fuel - (pq.length - 2 ^ L))
                (mergeStep^[pq.length - 2 ^ L] pq) ≤
              (pq.map HTree.frequency).sum +
                L * (pq.map HTree.frequency).sum := Nat.add_le_add hS hIH
            _ = (L + 1) * (pq.map HTree.frequency).sum := by ring

lemma buildLoopGo_spec : ∀ (fuel : Nat) (pq : List HTree),
    1 ≤ pq.length → pq.length ≤ fuel + 1 → (∀ t ∈ pq, wfT t) →
    ∃ root, buildLoopGo fuel pq = some root ∧ wfT root ∧
      cost root = (pq.map cost).sum + mergeSumGo fuel pq ∧
      (∀ p ∈ leaves root, ∃ t ∈ pq, p ∈ leaves t) ∧
      (pq = [root] ∨ root.isLeaf = false)
  | 0, pq, h1, h2, hw => by
      match pq, h1, h2 with
      | [t], _, _ =>
        refine ⟨t, rfl, hw t (by simp), by simp [mergeSumGo], ?_, Or.inl rfl⟩
        intro p hp
        exact ⟨t, by simp, hp⟩
  | fuel+1, pq, h1, h2, hw => by
      by_cases hlen : pq.length ≤ 1
      · match pq, h1, hlen with
        | [t], _, _ =>
          refine ⟨t, ?_, hw t (by simp), ?_, ?_, Or.inl rfl⟩
          · rw [buildLoopGo, if_pos (by simp)]
            rfl
          · rw [mergeSumGo_short _ _ (by simp)]
            simp
          · intro p hp
            exact ⟨t, by simp, hp⟩
      · have h2' : 2 ≤ pq.length := by omega
        obtain ⟨right, pq1, left, pq2, hp1, hp2, hl⟩ := pops_of_two_le pq h2'
        have hrmem := popMin_mem pq right pq1 hp1
        have hlmem : left ∈ pq :=
          popMin_rest_subset pq right pq1 hp1 left (popMin_mem pq1 left pq2 hp2)
        have hsub2 : ∀ u ∈ pq2, u ∈ pq := by
          intro u hu
          exact popMin_rest_subset pq right pq1 hp1 u
            (popMin_rest_subset pq1 left pq2 hp2 u hu)
        have hwl : wfT left := hw left hlmem
        have hwr : wfT right := hw right hrmem
        have hnode : wfT (HTree.node (left.frequency + right.frequency)
            left right) :=
          ⟨hwl, hwr, by rw [leafWeight_freq left hwl, leafWeight_freq right hwr]⟩
        have hwall : ∀ t ∈ HTree.node (left.frequency + right.frequency)
            left right :: pq2, wfT t := by
          intro t ht
          rcases List.mem_cons.mp ht with rfl | ht2
          · exact hnode
          · exact hw t (hsub2 t ht2)
        obtain ⟨root, hroot, hwroot, hcost, hleaves, hdisj⟩ :=
          buildLoopGo_spec fuel
            (HTree.node (left.frequency + right.frequency) left right :: pq2)
            (by simp) (by simp only [List.length_cons]; omega) hwall
        refine ⟨root, ?_, hwroot, ?_, ?_, ?_⟩
        · rw [buildLoopGo, if_neg hlen, hp1]
          dsimp only
          rw [hp2]
          dsimp only
          exact hroot
        · rw [mergeSumGo, if_neg hlen, hp1]
          dsimp only
          rw [hp2]
          dsimp only
          rw [hcost]
          have e1 := ((popMin_perm pq right pq1 hp1).map cost).sum_eq
          have e2 := ((popMin_perm pq1 left pq2 hp2).map cost).sum_eq
          simp only [List.map_cons, List.sum_cons] at e1 e2 ⊢
          rw [show cost (HTree.node (left.frequency + right.frequency)
              left right) =
            cost left + cost right + (left.frequency + right.frequency)
            from rfl]
          omega
        · intro p hp
          obtain ⟨t, ht, hpt⟩ := hleaves p hp
          rcases List.mem_cons.mp ht with rfl | ht2
          · rcases List.mem_append.mp (by
              rw [leaves] at hpt
              exact hpt) with hc | hc
            · exact ⟨left, hlmem, hc⟩
            · exact ⟨right, hrmem, hc⟩
          · exact ⟨t, hsub2 t ht2, hpt⟩
        · right
          rcases hdisj with heq | hnl
          · have : HTree.node (left.frequency + right.frequency) left right
                = root := by
              have := List.cons.injEq (HTree.node
                (left.frequency + right.frequency) left right) pq2 root []
              rw [List.cons.injEq] at heq
              exact heq.1
            rw [← this]
            rfl
          · exact hnl

lemma freqTable_mem (S : List Nat) (p : Nat × Nat) (hp : p ∈ freqTable S) :
    p.2 = S.count p.1 ∧ p.1 < 256 ∧ 0 < p.2 := by
  rw [freqTable] at hp
  obtain ⟨b, hb, rfl⟩ := List.mem_map.mp hp
  have hf := List.mem_filter.mp hb
  refine ⟨rfl, List.mem_range.mp hf.1, ?_⟩
  simpa using hf.2

lemma freqTable_length_le (S : List Nat) : (freqTable S).length ≤ 256 := by
  rw [freqTable, List.length_map]
  exact (List.length_filter_le _ _).trans (by simp)

lemma sum_map_add (l : List Nat) (f g : Nat → Nat) :
    (l.map (fun b => f b + g b)).sum = (l.map f).sum + (l.map g).sum := by
  induction l with
  | nil => rfl
  | cons x l ih =>
    simp only [List.map_cons, List.sum_cons, ih]
    omega

lemma sum_indicator (N x : Nat) (h : x < N) :
    ((List.range N).map (fun b => if x = b then 1 else 0)).sum = 1 := by
  induction N with
  | zero => omega
  | succ N ih =>
    rw [List.range_succ, List.map_append, List.sum_append]
    by_cases hx : x = N
    · subst hx
      have h0 : ((List.range x).map (fun b => if x = b then 1 else 0)).sum
          = 0 := by
        apply List.sum_eq_zero
        intro y hy
        obtain ⟨b, hb, rfl⟩ := List.mem_map.mp hy
        rw [if_neg]
        intro hxb
        exact absurd (List.mem_range.mp hb) (by omega)
      rw [h0]
      simp
    · rw [ih (by omega)]
      simp [hx]

lemma count_range_sum (S : List Nat) (N : Nat) (h : ∀ x ∈ S, x < N) :
    ((List.range N).map (fun b => S.count b)).sum = S.length := by
  induction S with
  | nil => simp
  | cons x S ih =>
    have hfun : (fun b => (x :: S).count b) =
        (fun b => S.count b + if x = b then 1 else 0) := by
      funext b
      rw [List.count_cons]
      simp [beq_iff_eq]
    rw [hfun, sum_map_add, ih (fun y hy => h y (by simp [hy])),
      sum_indicator N x (h x (by simp))]
    simp

lemma freqTable_sum (S : List Nat) (h : ∀ x ∈ S, x < 256) :
    ((freqTable S).map (fun p => p.2)).sum = S.length := by
  rw [freqTable, List.map_map]
  have hcomp : ((fun p : Nat × Nat => p.2) ∘ fun b => (b, S.count b)) =
      (fun b => S.count b) := rfl
  rw [hcomp]
  have hdrop : ∀ (l : List Nat),
      ((l.filter (fun b => 0 < S.count b)).map (fun b => S.count b)).sum =
        (l.map (fun b => S.count b)).sum := by
    intro l
    induction l with
    | nil => rfl
    | cons y l ih =>
      by_cases hy : 0 < S.count y
      · rw [List.filter_cons_of_pos (by simpa using hy)]
        simp only [List.map_cons, List.sum_cons, ih]
      · rw [List.filter_cons_of_neg (by simpa using hy)]
        have h0 : S.count y = 0 := by omega
        simp only [List.map_cons, List.sum_cons, ih, h0]
        omega
  rw [hdrop, count_range_sum S 256 h]

lemma two_le_length_of_mem {α : Type} {l : List α} {x y : α} (hx : x ∈ l)
    (hy : y ∈ l) (h : x ≠ y) : 2 ≤ l.length := by
  match l with
  | [] => simp at hx
  | [a] =>
    rw [List.mem_singleton] at hx hy
    exact absurd (hx.trans hy.symm) h
  | a :: b :: t => simp only [List.length_cons]; omega

lemma freqTable_two_le (S : List Nat) (x y : Nat) (hx : x ∈ S) (hy : y ∈ S)
    (hxy : x ≠ y) (hxb : x < 256) (hyb : y < 256) :
    2 ≤ (freqTable S).length := by
  have hmx : x ∈ (List.range 256).filter (fun b => 0 < S.count b) :=
    List.mem_filter.mpr ⟨List.mem_range.mpr hxb,
      by simpa using List.count_pos_iff.mpr hx⟩
  have hmy : y ∈ (List.range 256).filter (fun b => 0 < S.count b) :=
    List.mem_filter.mpr ⟨List.mem_range.mpr hyb,
      by simpa using List.count_pos_iff.mpr hy⟩
  rw [freqTable, List.length_map]
  exact two_le_length_of_mem hmx hmy hxy

lemma sum_map_mul_const (l : List (Nat × Nat)) :
    (l.map (fun p => p.2 * 8)).sum = (l.map (fun p => p.2)).sum * 8 := by
  induction l with
  | nil => rfl
  | cons x l ih =>
    simp only [List.map_cons, List.sum_cons, ih]
    ring

end Huffman

/-- C9: for every input with more than one distinct byte, buildHuffmanTree
succeeds on the frequency table and the code table generated from the tree
has only non-empty codes, is prefix-free in both directions, and its
weighted total code length Σ freq(b)·len(code(b)) is at most
Σ freq(b)·8 = 8·|S|, the 8-bits-per-byte payload budget. -/
theorem huffman_code_table_ok (S : List Nat) (hbytes : ∀ x ∈ S, x < 256)
    (hdistinct : ∃ x ∈ S, ∃ y ∈ S, x ≠ y) :
    ∃ root, Huffman.buildHuffmanTree (Huffman.freqTable S) = some root ∧
      (∀ p ∈ Huffman.generateCodes root [], p.2 ≠ []) ∧
      (Huffman.generateCodes root []).Pairwise
        (fun p q => ¬ p.2 <+: q.2 ∧ ¬ q.2 <+: p.2) ∧
      ((Huffman.generateCodes root []).map
          (fun p => S.count p.1 * p.2.length)).sum ≤
        ((Huffman.freqTable S).map (fun p => p.2 * 8)).sum ∧
      ((Huffman.freqTable S).map (fun p => p.2 * 8)).sum = 8 * S.length := by
  classical
  obtain ⟨x, hxS, y, hyS, hxy⟩ := hdistinct
  have hlen2 : 2 ≤ (Huffman.freqTable S).length :=
    Huffman.freqTable_two_le S x y hxS hyS hxy (hbytes x hxS) (hbytes y hyS)
  set pq0 := (Huffman.freqTable S).map
    (fun p => Huffman.HTree.leaf p.1 p.2) with hpq0
  have hlen0 : pq0.length = (Huffman.freqTable S).length := by
    rw [hpq0, List.length_map]
  have hwf0 : ∀ t ∈ pq0, Huffman.wfT t := by
    intro t ht
    rw [hpq0] at ht
    obtain ⟨p, hp, rfl⟩ := List.mem_map.mp ht
    trivial
  obtain ⟨root, hroot, hwroot, hcost, hleaves, hdisj⟩ :=
    Huffman.buildLoopGo_spec ((Huffman.freqTable S).length) pq0
      (by omega) (by omega) hwf0
  have hbuild : Huffman.buildHuffmanTree (Huffman.freqTable S) = some root := by
    rw [Huffman.buildHuffmanTree, ← hpq0]
    exact hroot
  have hnode : root.isLeaf = false := by
    rcases hdisj with heq | h
    · have hle := congrArg List.length heq
      simp only [List.length_singleton] at hle
      omega
    · exact h
  cases root with
  | leaf c f0 => simp [Huffman.HTree.isLeaf] at hnode
  | node f l r =>
    have hwl : Huffman.wfT l := hwroot.1
    have hwr : Huffman.wfT r := hwroot.2.1
    have hf : f = Huffman.leafWeight l + Huffman.leafWeight r := hwroot.2.2
    have hW : ∀ p ∈ Huffman.leaves (Huffman.HTree.node f l r),
        p.2 = S.count p.1 := by
      intro p hp
      obtain ⟨t, ht, hpt⟩ := hleaves p hp
      rw [hpq0] at ht
      obtain ⟨q, hq, rfl⟩ := List.mem_map.mp ht
      rw [Huffman.leaves, List.mem_singleton] at hpt
      subst hpt
      exact (Huffman.freqTable_mem S q hq).1
    have hWl : ∀ p ∈ Huffman.leaves l, p.2 = S.count p.1 := by
      intro p hp
      exact hW p (by rw [Huffman.leaves]; exact List.mem_append_left _ hp)
    have hWr : ∀ p ∈ Huffman.leaves r, p.2 = S.count p.1 := by
      intro p hp
      exact hW p (by rw [Huffman.leaves]; exact List.mem_append_right _ hp)
    have hsum : ((Huffman.generateCodes (Huffman.HTree.node f l r) []).map
        (fun p => S.count p.1 * p.2.length)).sum =
        Huffman.cost l + Huffman.cost r +
          (Huffman.leafWeight l + Huffman.leafWeight r) := by
      rw [Huffman.generateCodes, List.map_append, List.sum_append,
        Huffman.codes_sum S.count l ([] ++ [false]) (by simp) hWl,
        Huffman.codes_sum S.count r ([] ++ [true]) (by simp) hWr,
        Huffman.wsum_eq l hwl, Huffman.wsum_eq r hwr]
      simp only [List.nil_append, List.length_singleton, Nat.one_mul]
      omega
    have hzero : (pq0.map Huffman.cost).sum = 0 := by
      rw [hpq0, List.map_map]
      apply List.sum_eq_zero
      intro z hz
      obtain ⟨q, hq, rfl⟩ := List.mem_map.mp hz
      rfl
    have hbudget := Huffman.mergeSumGo_budget 8 ((Huffman.freqTable S).length)
      pq0 (by
        rw [hlen0]
        have := Huffman.freqTable_length_le S
        norm_num
        omega)
    have hfreqsum : (pq0.map Huffman.HTree.frequency).sum =
        ((Huffman.freqTable S).map (fun p => p.2)).sum := by
      rw [hpq0, List.map_map]
      rfl
    have hbound : ((Huffman.generateCodes (Huffman.HTree.node f l r) []).map
        (fun p => S.count p.1 * p.2.length)).sum ≤ 8 * S.length := by
      rw [hsum]
      have hcroot : Huffman.cost (Huffman.HTree.node f l r) =
          Huffman.cost l + Huffman.cost r +
            (Huffman.leafWeight l + Huffman.leafWeight r) := by
        rw [Huffman.cost, hf]
      rw [← hcroot, hcost, hzero]
      rw [hfreqsum, Huffman.freqTable_sum S hbytes] at hbudget
      omega
    have hbudget8 : ((Huffman.freqTable S).map (fun p => p.2 * 8)).sum =
        8 * S.length := by
      rw [Huffman.sum_map_mul_const, Huffman.freqTable_sum S hbytes]
      ring
    refine ⟨Huffman.HTree.node f l r, hbuild,
      Huffman.codes_nonempty _ _, Huffman.codes_pairwise _ _, ?_, hbudget8⟩
    rw [hbudget8]
    exact hbound

/-- Witness for C9 at the two-byte input [0, 1]. -/
theorem huffman_code_table_ok_witness :
    (∀ x ∈ ([0, 1] : List Nat), x < 256) ∧
      (∃ x ∈ ([0, 1] : List Nat), ∃ y ∈ ([0, 1] : List Nat), x ≠ y) ∧
      (∃ root,
        Huffman.buildHuffmanTree (Huffman.freqTable [0, 1]) = some root ∧
        (∀ p ∈ Huffman.generateCodes root [], p.2 ≠ []) ∧
        (Huffman.generateCodes root []).Pairwise
          (fun p q => ¬ p.2 <+: q.2 ∧ ¬ q.2 <+: p.2) ∧
        ((Huffman.generateCodes root []).map
            (fun p => List.count p.1 [0, 1] * p.2.length)).sum ≤
          ((Huffman.freqTable [0, 1]).map (fun p => p.2 * 8)).sum ∧
        ((Huffman.freqTable [0, 1]).map (fun p => p.2 * 8)).sum =
          8 * ([0, 1] : List Nat).length) :=
  ⟨by decide, by decide,
    huffman_code_table_ok [0, 1] (by decide) (by decide)⟩
